import Mathlib

/-!
A Lean model of the evaluation-ingestion pipeline of the nix-security-tracker
repository (`src/shared/evaluation.py`), together with theorems about its
parsing, fixup, identity-key, reconciliation and channel-policy behaviour.

The Python code is embedded shallowly: raw JSON records become an inductive
`Json` value, the typed dataclasses become structures, the Django store
surface (bulk_create with `ignore_conflicts` / `update_conflicts`,
`in_bulk`, through tables) becomes explicit state passing over a `DB`
record, and fallible Python code (KeyError / TypeError / IntegrityError)
returns `Except String`.
-/

set_option maxRecDepth 4000

/-- Values produced by the Python `json.loads` call: null, booleans, numbers
(modelled as integers — no behaviour relevant here distinguishes floats),
strings, lists, and dicts.  Dicts are insertion-ordered association lists
with unique keys, matching Python dict semantics. -/
inductive Json where
  | null : Json
  | bool : Bool → Json
  | num : Int → Json
  | str : String → Json
  | arr : List Json → Json
  | obj : List (String × Json) → Json

/-- Dict lookup on an association list (first match; Python dicts have
unique keys, so this is exact). -/
def dlookup {κ α : Type} [DecidableEq κ] (k : κ) : List (κ × α) → Option α
  | [] => none
  | (k0, v) :: rest => if k0 = k then some v else dlookup k rest

/-- Python dict assignment `d[k] = v`: replaces the value in place if the
key exists (keeping its position), otherwise appends the new pair. -/
def setField {κ α : Type} [DecidableEq κ] (d : List (κ × α)) (k : κ) (v : α) :
    List (κ × α) :=
  match d with
  | [] => [(k, v)]
  | (k0, v0) :: rest =>
    if k0 = k then (k0, v) :: rest else (k0, v0) :: setField rest k v

/-- Python `d.get(k)` on a JSON object: `none` models Python `None`, which
arises both when the key is absent and when its value is JSON null. -/
def Json.getNonNull (j : Json) (k : String) : Option Json :=
  match j with
  | .obj fields =>
    match dlookup k fields with
    | some .null => none
    | some v => some v
    | none => none
  | _ => none

/-- Key lookup on a JSON object, distinguishing an explicit null value from
an absent key (the Python `k in d` check followed by `d[k]`). -/
def Json.lookup (j : Json) (k : String) : Option Json :=
  match j with
  | .obj fields => dlookup k fields
  | _ => none

/-- One maintainer entry processed by the team-expansion loop of
`fixup_evaluated_attribute`: an object with a non-null `shortName` is a
team and contributes its `members` list, any other object contributes
itself.  A non-object entry, or a team without a `members` list, makes the
Python loop raise (`AttributeError` / `KeyError` / `TypeError`) and is
modelled as an error. -/
def expandMaintainer (m : Json) : Except String (List Json) :=
  match m with
  | .obj fields =>
    match Json.getNonNull (.obj fields) "shortName" with
    | some _ =>
      match dlookup "members" fields with
      | some (.arr ms) => .ok ms
      | _ => .error "team entry without a members list"
    | none => .ok [m]
  | _ => .error "maintainer entry is not an object"

/-- The `new_maintainers` accumulation of `fixup_evaluated_attribute`:
every entry is expanded in order and the results are concatenated. -/
def expandMaintainers : List Json → Except String (List Json)
  | [] => .ok []
  | m :: rest =>
    match expandMaintainer m with
    | .error e => .error e
    | .ok hd =>
      match expandMaintainers rest with
      | .error e => .error e
      | .ok tl => .ok (hd ++ tl)

/-- The license branch of `fixup_evaluated_attribute`: a non-list license
value of the metadata object is normalized to a list (the string "unknown"
to the empty list, any other string to a one-element list holding a
full-name-only object, any other value to a one-element list holding it);
a list-valued or absent license field is left alone. -/
def licenseStep (metaFields : List (String × Json)) : List (String × Json) :=
  match dlookup "license" metaFields with
  | some (.arr _) => metaFields
  | some (.str s) =>
    if s = "unknown" then setField metaFields "license" (.arr [])
    else setField metaFields "license" (.arr [.obj [("fullName", .str s)]])
  | some v => setField metaFields "license" (.arr [v])
  | none => metaFields

/-- The raw-record normalization of `fixup_evaluated_attribute`
(shared/evaluation.py): with a non-null metadata object, a non-list
`license` value is normalized (the string "unknown" to an empty list, any
other string to a one-element list holding a full-name-only object, any
other value to a one-element list holding it), and a list-valued
`maintainers` field has its team entries expanded in place.  A record that
is not an object, or a non-null non-object metadata block, makes the
Python code raise and is modelled as an error; the final
`EvaluatedAttribute.from_dict` typing step is not part of this function. -/
def fixup_evaluated_attribute (raw : Json) : Except String Json :=
  match raw with
  | .obj rawFields =>
    match dlookup "meta" rawFields with
    | none => .ok raw
    | some .null => .ok raw
    | some (.obj metaFields) =>
      let meta1 : List (String × Json) := licenseStep metaFields
      match dlookup "maintainers" meta1 with
      | some (.arr ms) =>
        match expandMaintainers ms with
        | .error e => .error e
        | .ok newms =>
          .ok (.obj (setField rawFields "meta"
            (.obj (setField meta1 "maintainers" (.arr newms)))))
      | _ => .ok (.obj (setField rawFields "meta" (.obj meta1)))
    | some _ => .error "metadata block is neither an object nor null"
  | _ => .error "record is not an object"

/-- The result type of `parse_evaluation_result`.  The `evaluation` field
holds the fixed-up record (`some`) exactly when the fixup was invoked; the
typed `from_dict` step is represented by the fixed-up JSON itself. -/
structure PartialEvaluatedAttribute where
  attr : Option Json
  attr_path : Option Json
  error : Option String
  evaluation : Option (Except String Json)

/-- The body of `parse_evaluation_result` (shared/evaluation.py), applied
to the already-decoded JSON record (`json.loads` of the line; malformed
JSON raises before this logic runs and is not modelled).  Note that the
Python code passes `error=None` unconditionally. -/
def parse_evaluation_result (raw : Json) : PartialEvaluatedAttribute :=
  { attr := raw.getNonNull "attr"
  , attr_path := raw.getNonNull "attr_path"
  , error := none
  , evaluation :=
      match raw.getNonNull "error" with
      | none => some (fixup_evaluated_attribute raw)
      | some _ => none }

/-- The `MaintainerAttribute` dataclass. -/
structure MaintainerAttribute where
  name : String
  github : Option String := none
  github_id : Option Int := none
  email : Option String := none
  matrix : Option String := none
deriving DecidableEq

/-- The `LicenseAttribute` dataclass. -/
structure LicenseAttribute where
  full_name : Option String := none
  deprecated : Bool := false
  free : Bool := false
  redistributable : Bool := false
  short_name : Option String := none
  spdx_id : Option String := none
  url : Option String := none
deriving DecidableEq

/-- The `MetadataAttribute` dataclass. -/
structure MetadataAttribute where
  outputs_to_install : List String := []
  available : Bool := true
  broken : Bool := false
  unfree : Bool := false
  unsupported : Bool := false
  insecure : Bool := false
  main_program : Option String := none
  position : Option String := none
  homepage : Option String := none
  description : Option String := none
  name : Option String := none
  maintainers : List MaintainerAttribute := []
  license : List LicenseAttribute := []
  platforms : List String := []
  known_vulnerabilities : List String := []
deriving DecidableEq

/-- The `EvaluatedAttribute` dataclass (a fully evaluated attribute). -/
structure EvaluatedAttribute where
  attr : String
  attr_path : List String
  name : String
  drv_path : String
  meta : Option MetadataAttribute
  outputs : List (String × String)
  system : String
deriving DecidableEq

/-- The Python expression `s or None` for an optional string: the empty string is falsy
and collapses to `None`. -/
def pyStrOrNone : Option String → Option String
  | some s => if s = "" then none else some s
  | none => none

/-- Model of `EvaluatedAttribute.as_key`: the dictionary key for a derivation,
`(drv_path, attr, name, meta.name or None if meta else None)`. -/
def EvaluatedAttribute.as_key (a : EvaluatedAttribute) :
    String × String × String × Option String :=
  (a.drv_path, a.attr, a.name,
   match a.meta with
   | some m => pyStrOrNone m.name
   | none => none)

/-- Diagnostics emitted by the entity extractors: one constructor per
`logger` call site in `parse_maintainers` / `parse_licenses`.  A skipped
maintainer is logged with its name and the list of missing identifiers
(the `missing` list of the Python code); a skipped license is logged with
the whole license record. -/
inductive LogEvent where
  | skipMaintainer (name : String) (missing : List String)
  | skipLicense (lic : LicenseAttribute)
deriving DecidableEq

/-- The `NixMaintainer` store row, with the fields assigned by
`parse_maintainers`; `github_id` is the unique reconciliation key. -/
structure NixMaintainer where
  github_id : Int
  github : Option String
  email : Option String
  matrix : Option String
  name : String
deriving DecidableEq

/-- The `NixLicense` store row, with the fields assigned by
`parse_licenses`; `spdx_id` is the unique reconciliation key. -/
structure NixLicense where
  spdx_id : String
  deprecated : Bool
  free : Bool
  redistributable : Bool
  full_name : Option String
  short_name : Option String
  url : Option String
deriving DecidableEq

/-- The `NixDerivationMeta` store row, with the fields assigned by
`parse_meta`. -/
structure NixDerivationMeta where
  name : Option String
  insecure : Bool
  available : Bool
  broken : Bool
  unfree : Bool
  unsupported : Bool
  homepage : Option String
  description : Option String
  main_program : Option String
  position : Option String
  known_vulnerabilities : List String
deriving DecidableEq

/-- The `NixDerivation` store row built by `make_derivation_shell`.  The
Python shell holds a reference to its (not yet saved) `NixDerivationMeta`
object; here `metadata` holds the position of that object in the batch
metadata list, replaced by the store-assigned primary key once the
metadata rows are inserted (the Python code gets this aliasing for free
because `bulk_create` assigns primary keys to the very objects the shell
references).  The Python field `attribute` is a Lean keyword, hence
`attribute_name` here. -/
structure NixDerivation where
  attribute_name : String
  derivation_path : String
  name : String
  metadata : Option Nat
  system : String
  parent_evaluation : Nat
deriving DecidableEq

/-- The `missing` list accumulated for a maintainer that is skipped for
lack of a GitHub ID. -/
def missingOf (m : MaintainerAttribute) : List String :=
  (if m.github = none then ["GitHub handle"] else []) ++ ["GitHub ID"]

/-- The loop of `SyncBatchAttributeIngester.parse_maintainers`, with the
`seen` set made explicit: an entry without a GitHub ID is skipped with a
diagnostic; an entry whose GitHub ID was already seen is skipped silently;
any other entry becomes a `NixMaintainer` row. -/
def parse_maintainersAux (seen : List Int) :
    List MaintainerAttribute → List NixMaintainer × List LogEvent
  | [] => ([], [])
  | m :: rest =>
    match m.github_id with
    | none =>
      let r := parse_maintainersAux seen rest
      (r.1, .skipMaintainer m.name (missingOf m) :: r.2)
    | some gid =>
      if gid ∈ seen then parse_maintainersAux seen rest
      else
        let r := parse_maintainersAux (gid :: seen) rest
        ({ github_id := gid, github := m.github, email := m.email,
           matrix := m.matrix, name := m.name } :: r.1, r.2)

/-- Model of `SyncBatchAttributeIngester.parse_maintainers`: the produced rows
together with the diagnostics it logs. -/
def parse_maintainers (ms : List MaintainerAttribute) :
    List NixMaintainer × List LogEvent :=
  parse_maintainersAux [] ms

/-- The loop of `SyncBatchAttributeIngester.parse_licenses`, with the
`seen` set made explicit. -/
def parse_licensesAux (seen : List String) :
    List LicenseAttribute → List NixLicense × List LogEvent
  | [] => ([], [])
  | lic :: rest =>
    match lic.spdx_id with
    | none =>
      let r := parse_licensesAux seen rest
      (r.1, .skipLicense lic :: r.2)
    | some sid =>
      if sid ∈ seen then parse_licensesAux seen rest
      else
        let r := parse_licensesAux (sid :: seen) rest
        ({ spdx_id := sid, deprecated := lic.deprecated, free := lic.free,
           redistributable := lic.redistributable,
           full_name := lic.full_name, short_name := lic.short_name,
           url := lic.url } :: r.1, r.2)

/-- Model of `SyncBatchAttributeIngester.parse_licenses`: the produced rows
together with the diagnostics it logs. -/
def parse_licenses (ls : List LicenseAttribute) :
    List NixLicense × List LogEvent :=
  parse_licensesAux [] ls

/-- Model of `SyncBatchAttributeIngester.parse_meta`: the metadata row plus the
candidate maintainer and license rows of one attribute (log events are
routed to the logger and do not flow into `ingest`). -/
def parse_meta (metadata : MetadataAttribute) :
    NixDerivationMeta × List NixMaintainer × List NixLicense :=
  ({ name := metadata.name
   , insecure := metadata.insecure
   , available := metadata.available
   , broken := metadata.broken
   , unfree := metadata.unfree
   , unsupported := metadata.unsupported
   , homepage := metadata.homepage
   , description := metadata.description
   , main_program := metadata.main_program
   , position := metadata.position
   , known_vulnerabilities := metadata.known_vulnerabilities },
   (parse_maintainers metadata.maintainers).1,
   (parse_licenses metadata.license).1)

/-- The Python method `str.removesuffix`: drops the suffix when present (the suffix
used by the ingester, `"." + system`, is never empty). -/
def pyRemovesuffix (s suffix : String) : String :=
  if suffix ≠ "" ∧ s.endsWith suffix then s.dropRight suffix.length else s

/-- Model of `SyncBatchAttributeIngester.make_derivation_shell`; `metadata` is the
position of the metadata row of the attribute in the batch metadata list (see
`NixDerivation.metadata`), and `parent` the owning evaluation. -/
def make_derivation_shell (parent : Nat) (attrib : EvaluatedAttribute)
    (metadata : Option Nat) : NixDerivation :=
  { attribute_name := pyRemovesuffix attrib.attr ("." ++ attrib.system)
  , derivation_path := attrib.drv_path
  , name := attrib.name
  , metadata := metadata
  , system := attrib.system
  , parent_evaluation := parent }

/-- Python dict assignment `d[k] = v` on an insertion-ordered dict:
identical to `setField` (replace in place, else append). -/
def dinsert {κ α : Type} [DecidableEq κ] (d : List (κ × α)) (k : κ) (v : α) :
    List (κ × α) :=
  setField d k v

/-- The accumulators of the single pass over all attributes at the start
of `SyncBatchAttributeIngester.ingest` (its local variables
`bulk_derivations`, `bulk_maintainers`, `bulk_licenses`, `metadata`,
`meta_maintainers`, `meta_licenses`). -/
structure Phase1 where
  bulk_derivations :
    List ((String × String × String × Option String) × NixDerivation)
  bulk_maintainers : List (Int × NixMaintainer)
  bulk_licenses : List (String × NixLicense)
  metadata : List NixDerivationMeta
  meta_maintainers : List (List NixMaintainer)
  meta_licenses : List (List NixLicense)

/-- One iteration of the attribute loop of `ingest`: parse the metadata
block when present, accumulate the per-attribute maintainer/license lists,
reconcile candidates into the id-keyed dicts (last assignment wins), and
key the derivation shell by `as_key` (last assignment wins). -/
def ingestStep (parent : Nat) (st : Phase1) (attrib : EvaluatedAttribute) :
    Phase1 :=
  match attrib.meta with
  | some metaAttr =>
    let parsed := parse_meta metaAttr
    let drv_metadata := parsed.1
    let drv_maintainers := parsed.2.1
    let drv_licenses := parsed.2.2
    { bulk_derivations :=
        dinsert st.bulk_derivations attrib.as_key
          (make_derivation_shell parent attrib (some st.metadata.length))
    , bulk_maintainers :=
        drv_maintainers.foldl (fun d m => dinsert d m.github_id m)
          st.bulk_maintainers
    , bulk_licenses :=
        drv_licenses.foldl (fun d l => dinsert d l.spdx_id l) st.bulk_licenses
    , metadata := st.metadata ++ [drv_metadata]
    , meta_maintainers := st.meta_maintainers ++ [drv_maintainers]
    , meta_licenses := st.meta_licenses ++ [drv_licenses] }
  | none =>
    { st with
      bulk_derivations :=
        dinsert st.bulk_derivations attrib.as_key
          (make_derivation_shell parent attrib none) }

/-- The empty accumulators at the start of `ingest`. -/
def initPhase1 : Phase1 :=
  { bulk_derivations := [], bulk_maintainers := [], bulk_licenses := []
  , metadata := [], meta_maintainers := [], meta_licenses := [] }

/-- The whole single pass over the attribute list at the start of
`ingest`. -/
def phase1 (parent : Nat) (evals : List EvaluatedAttribute) : Phase1 :=
  evals.foldl (ingestStep parent) initPhase1

/-- The relational store surface used by `ingest` (spec section 6): four
tables plus the two association tables, each row carrying a store-assigned
primary key, and one primary-key sequence.  Association rows are
`(nixderivationmeta_id, entity_id)` pairs. -/
structure DB where
  maintainers : List (Nat × NixMaintainer)
  licenses : List (Nat × NixLicense)
  metadata : List (Nat × NixDerivationMeta)
  maintainer_throughs : List (Nat × Nat)
  license_throughs : List (Nat × Nat)
  derivations : List (Nat × NixDerivation)
  next_pk : Nat
deriving DecidableEq

/-- A store with no rows. -/
def emptyDB : DB :=
  { maintainers := [], licenses := [], metadata := []
  , maintainer_throughs := [], license_throughs := [], derivations := []
  , next_pk := 0 }

/-- Lookup of a row by its unique natural key (`key`) in a table. -/
def tlookup {ρ κ : Type} [DecidableEq κ] (key : ρ → κ) (k : κ) :
    List (Nat × ρ) → Option ρ
  | [] => none
  | p :: rest => if key p.2 = k then some p.2 else tlookup key k rest

/-- Model of Django `bulk_create` on a table with a unique constraint on `key`,
as invoked by `ingest`: a row whose key conflicts with an existing row is
either merged into it by overwriting the `update_fields` (`upd`, when
`update_conflicts` is set), or dropped (when `ignore_conflicts` is set),
or raises an `IntegrityError` (when neither is set); a non-conflicting
row is appended with a fresh primary key. -/
def bulk_create_rows {ρ κ : Type} [DecidableEq κ] (key : ρ → κ)
    (upd : ρ → ρ → ρ) (ignore_conflicts update_conflicts : Bool) :
    List (Nat × ρ) × Nat → List ρ → Except String (List (Nat × ρ) × Nat)
  | st, [] => .ok st
  | (table, pk), r :: rest =>
    if table.any (fun p => decide (key p.2 = key r)) then
      if update_conflicts then
        bulk_create_rows key upd ignore_conflicts update_conflicts
          (table.map (fun p =>
            if key p.2 = key r then (p.1, upd p.2 r) else p), pk) rest
      else if ignore_conflicts then
        bulk_create_rows key upd ignore_conflicts update_conflicts
          (table, pk) rest
      else .error "IntegrityError: duplicate key"
    else
      bulk_create_rows key upd ignore_conflicts update_conflicts
        (table ++ [(pk, r)], pk + 1) rest

/-- The `update_fields` of the maintainer `bulk_create` call:
`["github", "email", "matrix", "name"]` (the unique field `github_id` is
untouched). -/
def updateMaintainerFields (old incoming : NixMaintainer) : NixMaintainer :=
  { old with github := incoming.github, email := incoming.email,
             matrix := incoming.matrix, name := incoming.name }

/-- The `update_fields` of the license `bulk_create` call: every field but
the unique `spdx_id`. -/
def updateLicenseFields (old incoming : NixLicense) : NixLicense :=
  { old with deprecated := incoming.deprecated, free := incoming.free,
             redistributable := incoming.redistributable,
             full_name := incoming.full_name,
             short_name := incoming.short_name, url := incoming.url }

/-- Primary key of the first row with the given natural key. -/
def tlookupPk {ρ κ : Type} [DecidableEq κ] (key : ρ → κ) (k : κ) :
    List (Nat × ρ) → Option Nat
  | [] => none
  | p :: rest => if key p.2 = k then some p.1 else tlookupPk key k rest

/-- Model of Django in_bulk(keys, field_name=...): the natural key to
primary key mapping for every requested key present in the table (only
the primary keys of the fetched objects are consumed downstream). -/
def in_bulk {ρ κ : Type} [DecidableEq κ] (key : ρ → κ)
    (table : List (Nat × ρ)) (keys : List κ) : List (κ × Nat) :=
  keys.filterMap (fun k =>
    match tlookupPk key k table with
    | some pk => some (k, pk)
    | none => none)

/-- The association-row primary keys of one per-attribute entity list:
`db_map[key(r)].pk` for each row, a Python dict access that raises
`KeyError` when the key is missing. -/
def through_pks {ρ κ : Type} [DecidableEq κ] (key : ρ → κ)
    (dbmap : List (κ × Nat)) : List ρ → Except String (List Nat)
  | [] => .ok []
  | r :: rest =>
    match dlookup (key r) dbmap with
    | none => .error "KeyError: entity not found after bulk write"
    | some pk =>
      match through_pks key dbmap rest with
      | .error e => .error e
      | .ok pks => .ok (pk :: pks)

/-- The association rows built by the `zip(db_metadata, ...)` loop of
`ingest`: one `(metadata pk, entity pk)` row per entity in the
per-attribute list of each metadata row, concatenated in order. -/
def build_throughs {ρ κ : Type} [DecidableEq κ] (key : ρ → κ)
    (dbmap : List (κ × Nat)) :
    List (Nat × List ρ) → Except String (List (Nat × Nat))
  | [] => .ok []
  | (mpk, rs) :: rest =>
    match through_pks key dbmap rs with
    | .error e => .error e
    | .ok pks =>
      match build_throughs key dbmap rest with
      | .error e => .error e
      | .ok others => .ok (pks.map (fun pk => (mpk, pk)) ++ others)

/-- Plain `bulk_create` without conflict handling (metadata and derivation
rows): append every row with a fresh primary key and return the assigned
primary keys in input order. -/
def insert_rows {ρ : Type} (table : List (Nat × ρ)) (pk : Nat) :
    List ρ → List (Nat × ρ) × Nat × List Nat
  | [] => (table, pk, [])
  | r :: rest =>
    let t := insert_rows (table ++ [(pk, r)]) (pk + 1) rest
    (t.1, t.2.1, pk :: t.2.2)

/-- Replace the reference of a derivation shell to its batch metadata entry
by the store-assigned primary key of that entry (the Python shell references the
metadata object itself, which receives its primary key in the metadata
`bulk_create`). -/
def resolveMeta (meta_pks : List Nat) (d : NixDerivation) : NixDerivation :=
  { d with metadata := d.metadata.map (fun i => meta_pks.getD i 0) }

/-- Sequencing of fallible store phases (Python exception propagation):
an error aborts the whole ingestion run. -/
def exbind {α β : Type} (x : Except String α) (f : α → Except String β) :
    Except String β :=
  match x with
  | .error e => .error e
  | .ok v => f v

/-- Model of `SyncBatchAttributeIngester.ingest` for one evaluation: the single
pass over the attributes (`phase1`), the channel-policy bulk writes of the
reconciled maintainers and licenses (`ignore_conflicts = not rolling`,
`update_conflicts = rolling`) each followed by an unconditional re-read
(`in_bulk`), the plain metadata insert, the two association-table inserts,
and the derivation-shell insert.  `rolling` is the `rolling_release` flag
computed in `SyncBatchAttributeIngester.__init__` from the channel of the
evaluation, and `parent` the owning evaluation row.  Returns the updated
store and the list of persisted derivations. -/
def ingest (rolling : Bool) (parent : Nat) (db : DB)
    (evals : List EvaluatedAttribute) :
    Except String (DB × List NixDerivation) :=
  let st := phase1 parent evals
  exbind (bulk_create_rows NixMaintainer.github_id updateMaintainerFields
      (!rolling) rolling (db.maintainers, db.next_pk)
      (st.bulk_maintainers.map Prod.snd)) (fun mr =>
  let dbm := in_bulk NixMaintainer.github_id mr.1
    (st.bulk_maintainers.map Prod.fst)
  exbind (bulk_create_rows NixLicense.spdx_id updateLicenseFields
      (!rolling) rolling (db.licenses, mr.2)
      (st.bulk_licenses.map Prod.snd)) (fun lr =>
  let dbl := in_bulk NixLicense.spdx_id lr.1 (st.bulk_licenses.map Prod.fst)
  let metains := insert_rows db.metadata lr.2 st.metadata
  exbind (build_throughs NixMaintainer.github_id dbm
      (metains.2.2.zip st.meta_maintainers)) (fun mthroughs =>
  exbind (build_throughs NixLicense.spdx_id dbl
      (metains.2.2.zip st.meta_licenses)) (fun lthroughs =>
  let shells := st.bulk_derivations.map (fun p => resolveMeta metains.2.2 p.2)
  let drvins := insert_rows db.derivations metains.2.1 shells
  .ok ({ maintainers := mr.1
       , licenses := lr.1
       , metadata := metains.1
       , maintainer_throughs := db.maintainer_throughs ++ mthroughs
       , license_throughs := db.license_throughs ++ lthroughs
       , derivations := drvins.1
       , next_pk := drvins.2.1 }, shells)))))

/-- Left-biased choice on options, used to state "last writer wins"
characterizations of the insertion-ordered dicts. -/
def oor {α : Type} : Option α → Option α → Option α
  | some v, _ => some v
  | none, y => y

theorem oor_some {α : Type} (v : α) (y : Option α) : oor (some v) y = some v :=
  rfl

theorem oor_none_left {α : Type} (y : Option α) : oor none y = y := rfl

theorem oor_none_right {α : Type} (x : Option α) : oor x none = x := by
  cases x <;> rfl

theorem oor_assoc {α : Type} (x y z : Option α) :
    oor (oor x y) z = oor x (oor y z) := by
  cases x <;> cases y <;> rfl

theorem oor_map {α β : Type} (f : α → β) (x y : Option α) :
    (oor x y).map f = oor (x.map f) (y.map f) := by
  cases x <;> rfl

theorem getLast?_cons_oor {α : Type} (x : α) (xs : List α) :
    (x :: xs).getLast? = oor xs.getLast? (some x) := by
  induction xs with
  | nil => rfl
  | cons y ys ih =>
    rw [List.getLast?_cons_cons]
    cases h : (y :: ys).getLast? with
    | some v => rfl
    | none => simp at h

theorem dlookup_setField {κ α : Type} [DecidableEq κ] (d : List (κ × α))
    (k k' : κ) (v : α) :
    dlookup k (setField d k' v) = if k' = k then some v else dlookup k d := by
  induction d with
  | nil =>
    by_cases h : k' = k <;> simp [setField, dlookup, h]
  | cons p rest ih =>
    obtain ⟨k0, v0⟩ := p
    by_cases h0 : k0 = k'
    · subst h0
      by_cases h : k0 = k <;> simp [setField, dlookup, h]
    · by_cases h : k0 = k
      · subst h
        have hne : k' ≠ k0 := fun hh => h0 hh.symm
        simp [setField, dlookup, h0, hne]
      · simp [setField, dlookup, h0, h, ih]

theorem setField_self {κ α : Type} [DecidableEq κ] {d : List (κ × α)}
    {k : κ} {v : α} (h : dlookup k d = some v) : setField d k v = d := by
  induction d with
  | nil => simp [dlookup] at h
  | cons p rest ih =>
    obtain ⟨k0, v0⟩ := p
    by_cases h0 : k0 = k
    · subst h0
      simp [dlookup] at h
      simp [setField, h]
    · simp [dlookup, h0] at h
      simp [setField, h0, ih h]

/-- Key insertion as seen on the key list of an insertion-ordered dict:
an existing key is left in place, a new key is appended. -/
def insKey {κ : Type} [DecidableEq κ] (ks : List κ) (k : κ) : List κ :=
  if k ∈ ks then ks else ks ++ [k]

theorem map_fst_setField {κ α : Type} [DecidableEq κ] (d : List (κ × α))
    (k : κ) (v : α) :
    (setField d k v).map Prod.fst = insKey (d.map Prod.fst) k := by
  induction d with
  | nil => simp [setField, insKey]
  | cons p rest ih =>
    obtain ⟨k0, v0⟩ := p
    by_cases h0 : k0 = k
    · subst h0; simp [setField, insKey]
    · have hne : k ≠ k0 := fun hh => h0 hh.symm
      simp only [setField, if_neg h0, List.map_cons]
      rw [ih]
      by_cases hm : k ∈ rest.map Prod.fst <;>
        simp [insKey, hm, hne]

theorem nodup_insKey {κ : Type} [DecidableEq κ] {ks : List κ} (h : ks.Nodup)
    (k : κ) : (insKey ks k).Nodup := by
  unfold insKey
  by_cases hm : k ∈ ks
  · simpa [hm] using h
  · simp only [if_neg hm]
    exact List.Nodup.append h (List.nodup_singleton k)
      (by simpa [List.disjoint_singleton] using hm)

theorem length_foldl_insKey {κ : Type} [DecidableEq κ] (ks : List κ) :
    ∀ acc : List κ, acc.Nodup →
      (ks.foldl insKey acc).length = (acc.toFinset ∪ ks.toFinset).card := by
  induction ks with
  | nil =>
    intro acc h
    simp [List.card_toFinset, h.dedup]
  | cons k ks ih =>
    intro acc h
    simp only [List.foldl_cons]
    by_cases hm : k ∈ acc
    · rw [show insKey acc k = acc from if_pos hm, ih acc h]
      congr 1
      ext x
      simp only [Finset.mem_union, List.mem_toFinset, List.mem_cons]
      constructor
      · rintro (hx | hx)
        · exact Or.inl hx
        · exact Or.inr (Or.inr hx)
      · rintro (hx | hx | hx)
        · exact Or.inl hx
        · exact Or.inl (hx ▸ hm)
        · exact Or.inr hx
    · rw [show insKey acc k = acc ++ [k] from if_neg hm,
          ih _ (by simp [List.nodup_append, h, hm])]
      congr 1
      ext x
      simp only [Finset.mem_union, List.mem_toFinset, List.mem_append,
        List.mem_cons, List.mem_singleton]
      tauto

theorem dlookup_dinsert {κ α : Type} [DecidableEq κ] (d : List (κ × α))
    (k k' : κ) (v : α) :
    dlookup k (dinsert d k' v) = if k' = k then some v else dlookup k d :=
  dlookup_setField d k k' v

theorem dlookup_foldl_dinsert {ρ κ : Type} [DecidableEq κ] (key : ρ → κ)
    (g : κ) (rows : List ρ) :
    ∀ d : List (κ × ρ),
      dlookup g (rows.foldl (fun d m => dinsert d (key m) m) d)
        = oor ((rows.filter (fun m => decide (key m = g))).getLast?)
            (dlookup g d) := by
  induction rows with
  | nil => intro d; rfl
  | cons r rows ih =>
    intro d
    simp only [List.foldl_cons]
    rw [ih]
    by_cases h : key r = g
    · rw [List.filter_cons_of_pos (by simp [h]), getLast?_cons_oor, oor_assoc]
      congr 1
      rw [dlookup_dinsert, if_pos h]
      rfl
    · rw [List.filter_cons_of_neg (by simp [h])]
      congr 1
      rw [dlookup_dinsert, if_neg h]

theorem nodup_keys_foldl_dinsert {ρ κ : Type} [DecidableEq κ] (key : ρ → κ)
    (rows : List ρ) :
    ∀ d : List (κ × ρ), (d.map Prod.fst).Nodup →
      ((rows.foldl (fun d m => dinsert d (key m) m) d).map Prod.fst).Nodup := by
  induction rows with
  | nil => intro d h; exact h
  | cons r rows ih =>
    intro d h
    simp only [List.foldl_cons]
    exact ih _ (by rw [dinsert, map_fst_setField]; exact nodup_insKey h _)

theorem keyinv_setField {ρ κ : Type} [DecidableEq κ] {key : ρ → κ}
    {d : List (κ × ρ)} {m : ρ} (h : ∀ p ∈ d, key p.2 = p.1) :
    ∀ p ∈ setField d (key m) m, key p.2 = p.1 := by
  induction d with
  | nil =>
    intro p hp
    simp only [setField, List.mem_singleton] at hp
    subst hp; rfl
  | cons q rest ih =>
    obtain ⟨k0, v0⟩ := q
    intro p hp
    by_cases h0 : k0 = key m
    · subst h0
      simp only [setField, eq_self_iff_true, if_true, List.mem_cons] at hp
      rcases hp with hp | hp
      · subst hp; rfl
      · exact h p (List.mem_cons_of_mem _ hp)
    · simp only [setField, if_neg h0, List.mem_cons] at hp
      rcases hp with hp | hp
      · subst hp; exact h _ (List.mem_cons_self _ _)
      · exact ih (fun q hq => h q (List.mem_cons_of_mem _ hq)) p hp

theorem keyinv_foldl_dinsert {ρ κ : Type} [DecidableEq κ] (key : ρ → κ)
    (rows : List ρ) :
    ∀ d : List (κ × ρ), (∀ p ∈ d, key p.2 = p.1) →
      ∀ p ∈ rows.foldl (fun d m => dinsert d (key m) m) d, key p.2 = p.1 := by
  induction rows with
  | nil => intro d h; exact h
  | cons r rows ih =>
    intro d h
    simp only [List.foldl_cons]
    exact ih _ (keyinv_setField h)

theorem filter_getLast?_eq_find? {ρ κ : Type} [DecidableEq κ] (key : ρ → κ)
    (g : κ) (rows : List ρ) (h : (rows.map key).Nodup) :
    (rows.filter (fun m => decide (key m = g))).getLast?
      = rows.find? (fun m => decide (key m = g)) := by
  induction rows with
  | nil => rfl
  | cons r rows ih =>
    simp only [List.map_cons, List.nodup_cons] at h
    by_cases hg : key r = g
    · rw [List.filter_cons_of_pos (by simp [hg]),
        List.find?_cons_of_pos _ (by simp [hg])]
      have hnil : rows.filter (fun m => decide (key m = g)) = [] := by
        rw [List.filter_eq_nil_iff]
        intro m hm
        simp only [decide_eq_true_eq]
        intro hkey
        exact h.1 (hg ▸ hkey ▸ List.mem_map_of_mem key hm)
      rw [hnil]
      rfl
    · rw [List.filter_cons_of_neg (by simp [hg]),
        List.find?_cons_of_neg _ (by simp [hg])]
      exact ih h.2

theorem parse_maintainersAux_ids (ms : List MaintainerAttribute) :
    ∀ seen : List Int,
      (((parse_maintainersAux seen ms).1.map NixMaintainer.github_id).Nodup ∧
        ∀ r ∈ (parse_maintainersAux seen ms).1, r.github_id ∉ seen) := by
  induction ms with
  | nil => intro seen; simp [parse_maintainersAux]
  | cons m ms ih =>
    intro seen
    cases hgid : m.github_id with
    | none =>
      simpa [parse_maintainersAux, hgid] using ih seen
    | some gid =>
      by_cases hseen : gid ∈ seen
      · simpa [parse_maintainersAux, hgid, hseen] using ih seen
      · have h2 := ih (gid :: seen)
        constructor
        · simp only [parse_maintainersAux, hgid, if_neg hseen, List.map_cons,
            List.nodup_cons]
          refine ⟨fun hmem => ?_, h2.1⟩
          rw [List.mem_map] at hmem
          obtain ⟨r, hr, hrid⟩ := hmem
          exact h2.2 r hr (hrid ▸ List.mem_cons_self _ _)
        · intro r hr
          simp only [parse_maintainersAux, hgid, if_neg hseen,
            List.mem_cons] at hr
          rcases hr with hr | hr
          · subst hr; exact hseen
          · exact fun hmem => h2.2 r hr (List.mem_cons_of_mem _ hmem)

theorem parse_licensesAux_ids (ls : List LicenseAttribute) :
    ∀ seen : List String,
      (((parse_licensesAux seen ls).1.map NixLicense.spdx_id).Nodup ∧
        ∀ r ∈ (parse_licensesAux seen ls).1, r.spdx_id ∉ seen) := by
  induction ls with
  | nil => intro seen; simp [parse_licensesAux]
  | cons lic ls ih =>
    intro seen
    cases hsid : lic.spdx_id with
    | none =>
      simpa [parse_licensesAux, hsid] using ih seen
    | some sid =>
      by_cases hseen : sid ∈ seen
      · simpa [parse_licensesAux, hsid, hseen] using ih seen
      · have h2 := ih (sid :: seen)
        constructor
        · simp only [parse_licensesAux, hsid, if_neg hseen, List.map_cons,
            List.nodup_cons]
          refine ⟨fun hmem => ?_, h2.1⟩
          rw [List.mem_map] at hmem
          obtain ⟨r, hr, hrid⟩ := hmem
          exact h2.2 r hr (hrid ▸ List.mem_cons_self _ _)
        · intro r hr
          simp only [parse_licensesAux, hsid, if_neg hseen,
            List.mem_cons] at hr
          rcases hr with hr | hr
          · subst hr; exact hseen
          · exact fun hmem => h2.2 r hr (List.mem_cons_of_mem _ hmem)

/-- The diagnostics of `parse_maintainers` in closed form: exactly one
`skipMaintainer` event per entry without a GitHub ID, independent of the
`seen` set. -/
theorem parse_maintainersAux_logs (ms : List MaintainerAttribute) :
    ∀ seen : List Int,
      (parse_maintainersAux seen ms).2
        = ms.filterMap (fun m =>
            match m.github_id with
            | none => some (.skipMaintainer m.name (missingOf m))
            | some _ => none) := by
  induction ms with
  | nil => intro seen; rfl
  | cons m ms ih =>
    intro seen
    cases hgid : m.github_id with
    | none => simp [parse_maintainersAux, hgid, List.filterMap_cons, ih]
    | some gid =>
      by_cases hseen : gid ∈ seen <;>
        simp [parse_maintainersAux, hgid, hseen, List.filterMap_cons, ih]

/-- The diagnostics of `parse_licenses` in closed form. -/
theorem parse_licensesAux_logs (ls : List LicenseAttribute) :
    ∀ seen : List String,
      (parse_licensesAux seen ls).2
        = ls.filterMap (fun lic =>
            match lic.spdx_id with
            | none => some (.skipLicense lic)
            | some _ => none) := by
  induction ls with
  | nil => intro seen; rfl
  | cons lic ls ih =>
    intro seen
    cases hsid : lic.spdx_id with
    | none => simp [parse_licensesAux, hsid, List.filterMap_cons, ih]
    | some sid =>
      by_cases hseen : sid ∈ seen <;>
        simp [parse_licensesAux, hsid, hseen, List.filterMap_cons, ih]

/-- Rows of `parse_maintainers` are unchanged when entries without a
GitHub ID are removed from the input. -/
theorem parse_maintainersAux_filter (ms : List MaintainerAttribute) :
    ∀ seen : List Int,
      (parse_maintainersAux seen
          (ms.filter (fun m => m.github_id.isSome))).1
        = (parse_maintainersAux seen ms).1 := by
  induction ms with
  | nil => intro seen; rfl
  | cons m ms ih =>
    intro seen
    cases hgid : m.github_id with
    | none =>
      rw [List.filter_cons_of_neg (by simp [hgid])]
      simp [parse_maintainersAux, hgid, ih]
    | some gid =>
      rw [List.filter_cons_of_pos (by simp [hgid])]
      by_cases hseen : gid ∈ seen <;>
        simp [parse_maintainersAux, hgid, hseen, ih]

/-- Rows of `parse_licenses` are unchanged when entries without an SPDX id
are removed from the input. -/
theorem parse_licensesAux_filter (ls : List LicenseAttribute) :
    ∀ seen : List String,
      (parse_licensesAux seen (ls.filter (fun l => l.spdx_id.isSome))).1
        = (parse_licensesAux seen ls).1 := by
  induction ls with
  | nil => intro seen; rfl
  | cons lic ls ih =>
    intro seen
    cases hsid : lic.spdx_id with
    | none =>
      rw [List.filter_cons_of_neg (by simp [hsid])]
      simp [parse_licensesAux, hsid, ih]
    | some sid =>
      rw [List.filter_cons_of_pos (by simp [hsid])]
      by_cases hseen : sid ∈ seen <;>
        simp [parse_licensesAux, hsid, hseen, ih]

/-- The natural-key content of a derivation row: every field except the
store-resolved metadata reference, which is reduced to its presence (the
reference itself is a primary key assigned at write time). -/
def shellData (d : NixDerivation) :
    String × String × String × String × Nat × Bool :=
  (d.attribute_name, d.derivation_path, d.name, d.system,
   d.parent_evaluation, d.metadata.isSome)

/-- The derivation-row content determined by one attribute. -/
def shellDataOf (parent : Nat) (a : EvaluatedAttribute) :
    String × String × String × String × Nat × Bool :=
  (pyRemovesuffix a.attr ("." ++ a.system), a.drv_path, a.name, a.system,
   parent, a.meta.isSome)

theorem dlookup_step_derivations (parent : Nat) (st : Phase1)
    (a : EvaluatedAttribute) (k : String × String × String × Option String) :
    (dlookup k ((ingestStep parent st a).bulk_derivations)).map shellData
      = if a.as_key = k then some (shellDataOf parent a)
        else (dlookup k st.bulk_derivations).map shellData := by
  have hbd : (ingestStep parent st a).bulk_derivations
      = dinsert st.bulk_derivations a.as_key
          (make_derivation_shell parent a
            (match a.meta with
             | some _ => some st.metadata.length
             | none => none)) := by
    cases hm : a.meta <;> simp [ingestStep, hm]
  rw [hbd, dinsert, dlookup_setField]
  by_cases hk : a.as_key = k
  · rw [if_pos hk, if_pos hk]
    cases hm : a.meta <;>
      simp [make_derivation_shell, shellData, shellDataOf, hm]
  · rw [if_neg hk, if_neg hk]

theorem map_fst_step_derivations (parent : Nat) (st : Phase1)
    (a : EvaluatedAttribute) :
    ((ingestStep parent st a).bulk_derivations).map Prod.fst
      = insKey (st.bulk_derivations.map Prod.fst) a.as_key := by
  cases hm : a.meta <;> simp [ingestStep, hm, dinsert, map_fst_setField]

theorem phase1_derivation_keys (parent : Nat) (evals : List EvaluatedAttribute) :
    ∀ st : Phase1,
      ((evals.foldl (ingestStep parent) st).bulk_derivations).map Prod.fst
        = (evals.map EvaluatedAttribute.as_key).foldl insKey
            (st.bulk_derivations.map Prod.fst) := by
  induction evals with
  | nil => intro st; rfl
  | cons a evals ih =>
    intro st
    simp only [List.foldl_cons, List.map_cons]
    rw [ih, map_fst_step_derivations]

theorem phase1_derivation_count (parent : Nat)
    (evals : List EvaluatedAttribute) :
    (phase1 parent evals).bulk_derivations.length
      = (evals.map EvaluatedAttribute.as_key).dedup.length := by
  have h := phase1_derivation_keys parent evals initPhase1
  have h0 : initPhase1.bulk_derivations.map Prod.fst = ([] : List _) := rfl
  rw [h0] at h
  have hlen := congrArg List.length h
  simp only [List.length_map] at hlen
  rw [phase1, hlen, length_foldl_insKey _ [] List.nodup_nil]
  simp [List.card_toFinset]

theorem phase1_derivation_lookup (parent : Nat)
    (k : String × String × String × Option String)
    (evals : List EvaluatedAttribute) :
    ∀ st : Phase1,
      (dlookup k ((evals.foldl (ingestStep parent) st).bulk_derivations)).map
          shellData
        = oor (((evals.filter (fun a => decide (a.as_key = k))).getLast?).map
              (shellDataOf parent))
            ((dlookup k st.bulk_derivations).map shellData) := by
  induction evals with
  | nil => intro st; rfl
  | cons a evals ih =>
    intro st
    simp only [List.foldl_cons]
    rw [ih]
    by_cases hk : a.as_key = k
    · rw [List.filter_cons_of_pos (by simp [hk]), getLast?_cons_oor, oor_map,
        oor_assoc]
      congr 1
      rw [dlookup_step_derivations, if_pos hk]
      rfl
    · rw [List.filter_cons_of_neg (by simp [hk])]
      congr 1
      rw [dlookup_step_derivations, if_neg hk]

theorem phase1_metadata_count (parent : Nat)
    (evals : List EvaluatedAttribute) :
    ∀ st : Phase1,
      ((evals.foldl (ingestStep parent) st).metadata).length
        = st.metadata.length + evals.countP (fun a => a.meta.isSome) := by
  induction evals with
  | nil => intro st; simp
  | cons a evals ih =>
    intro st
    simp only [List.foldl_cons]
    rw [ih]
    cases hm : a.meta with
    | none => simp [ingestStep, hm, List.countP_cons]
    | some metaAttr =>
      simp [ingestStep, hm, List.countP_cons]
      omega

/-- The candidate a single attribute contributes for GitHub id `g` to the
batch-wide `bulk_maintainers` dict: the first row of its (internally
deduplicated) per-attribute maintainer list carrying that id. -/
def contribM (g : Int) (a : EvaluatedAttribute) : Option NixMaintainer :=
  a.meta.bind (fun m =>
    (parse_maintainers m.maintainers).1.find?
      (fun r => decide (r.github_id = g)))

/-- The candidate a single attribute contributes for SPDX id `s` to the
batch-wide `bulk_licenses` dict. -/
def contribL (s : String) (a : EvaluatedAttribute) : Option NixLicense :=
  a.meta.bind (fun m =>
    (parse_licenses m.license).1.find? (fun r => decide (r.spdx_id = s)))

theorem phase1_maintainer_lookup (parent : Nat) (g : Int)
    (evals : List EvaluatedAttribute) :
    ∀ st : Phase1,
      dlookup g ((evals.foldl (ingestStep parent) st).bulk_maintainers)
        = oor ((evals.filterMap (contribM g)).getLast?)
            (dlookup g st.bulk_maintainers) := by
  induction evals with
  | nil => intro st; rfl
  | cons a evals ih =>
    intro st
    simp only [List.foldl_cons]
    rw [ih]
    cases hm : a.meta with
    | none =>
      rw [List.filterMap_cons_none (by simp [contribM, hm])]
      congr 1
      simp [ingestStep, hm]
    | some metaAttr =>
      have hstep : (ingestStep parent st a).bulk_maintainers
          = (parse_maintainers metaAttr.maintainers).1.foldl
              (fun d m => dinsert d m.github_id m) st.bulk_maintainers := by
        simp [ingestStep, hm, parse_meta]
      have hco : contribM g a
          = (parse_maintainers metaAttr.maintainers).1.find?
              (fun r => decide (r.github_id = g)) := by
        simp [contribM, hm]
      rw [hstep, dlookup_foldl_dinsert NixMaintainer.github_id,
        filter_getLast?_eq_find? NixMaintainer.github_id g
          ((parse_maintainers metaAttr.maintainers).1)
          ((parse_maintainersAux_ids metaAttr.maintainers []).1)]
      cases hfind : (parse_maintainers metaAttr.maintainers).1.find?
          (fun r => decide (r.github_id = g)) with
      | none =>
        rw [List.filterMap_cons_none (by rw [hco]; exact hfind)]
        rfl
      | some c =>
        rw [List.filterMap_cons_some
            (show contribM g a = some c by rw [hco]; exact hfind),
          getLast?_cons_oor, oor_assoc]

theorem phase1_license_lookup (parent : Nat) (s : String)
    (evals : List EvaluatedAttribute) :
    ∀ st : Phase1,
      dlookup s ((evals.foldl (ingestStep parent) st).bulk_licenses)
        = oor ((evals.filterMap (contribL s)).getLast?)
            (dlookup s st.bulk_licenses) := by
  induction evals with
  | nil => intro st; rfl
  | cons a evals ih =>
    intro st
    simp only [List.foldl_cons]
    rw [ih]
    cases hm : a.meta with
    | none =>
      rw [List.filterMap_cons_none (by simp [contribL, hm])]
      congr 1
      simp [ingestStep, hm]
    | some metaAttr =>
      have hstep : (ingestStep parent st a).bulk_licenses
          = (parse_licenses metaAttr.license).1.foldl
              (fun d l => dinsert d l.spdx_id l) st.bulk_licenses := by
        simp [ingestStep, hm, parse_meta]
      have hco : contribL s a
          = (parse_licenses metaAttr.license).1.find?
              (fun r => decide (r.spdx_id = s)) := by
        simp [contribL, hm]
      rw [hstep, dlookup_foldl_dinsert NixLicense.spdx_id,
        filter_getLast?_eq_find? NixLicense.spdx_id s
          ((parse_licenses metaAttr.license).1)
          ((parse_licensesAux_ids metaAttr.license []).1)]
      cases hfind : (parse_licenses metaAttr.license).1.find?
          (fun r => decide (r.spdx_id = s)) with
      | none =>
        rw [List.filterMap_cons_none (by rw [hco]; exact hfind)]
        rfl
      | some c =>
        rw [List.filterMap_cons_some
            (show contribL s a = some c by rw [hco]; exact hfind),
          getLast?_cons_oor, oor_assoc]

theorem phase1_maintainer_keys_nodup (parent : Nat)
    (evals : List EvaluatedAttribute) :
    ∀ st : Phase1, (st.bulk_maintainers.map Prod.fst).Nodup →
      (((evals.foldl (ingestStep parent) st).bulk_maintainers).map
        Prod.fst).Nodup := by
  induction evals with
  | nil => intro st h; exact h
  | cons a evals ih =>
    intro st h
    simp only [List.foldl_cons]
    refine ih _ ?_
    cases hm : a.meta with
    | none => simpa [ingestStep, hm] using h
    | some metaAttr =>
      have hstep : (ingestStep parent st a).bulk_maintainers
          = (parse_maintainers metaAttr.maintainers).1.foldl
              (fun d m => dinsert d m.github_id m) st.bulk_maintainers := by
        simp [ingestStep, hm, parse_meta]
      rw [hstep]
      exact nodup_keys_foldl_dinsert NixMaintainer.github_id _ _ h

theorem phase1_license_keys_nodup (parent : Nat)
    (evals : List EvaluatedAttribute) :
    ∀ st : Phase1, (st.bulk_licenses.map Prod.fst).Nodup →
      (((evals.foldl (ingestStep parent) st).bulk_licenses).map
        Prod.fst).Nodup := by
  induction evals with
  | nil => intro st h; exact h
  | cons a evals ih =>
    intro st h
    simp only [List.foldl_cons]
    refine ih _ ?_
    cases hm : a.meta with
    | none => simpa [ingestStep, hm] using h
    | some metaAttr =>
      have hstep : (ingestStep parent st a).bulk_licenses
          = (parse_licenses metaAttr.license).1.foldl
              (fun d l => dinsert d l.spdx_id l) st.bulk_licenses := by
        simp [ingestStep, hm, parse_meta]
      rw [hstep]
      exact nodup_keys_foldl_dinsert NixLicense.spdx_id _ _ h

theorem phase1_maintainer_keyinv (parent : Nat)
    (evals : List EvaluatedAttribute) :
    ∀ st : Phase1, (∀ p ∈ st.bulk_maintainers, p.2.github_id = p.1) →
      ∀ p ∈ (evals.foldl (ingestStep parent) st).bulk_maintainers,
        p.2.github_id = p.1 := by
  induction evals with
  | nil => intro st h; exact h
  | cons a evals ih =>
    intro st h
    simp only [List.foldl_cons]
    refine ih _ ?_
    cases hm : a.meta with
    | none => simpa [ingestStep, hm] using h
    | some metaAttr =>
      have hstep : (ingestStep parent st a).bulk_maintainers
          = (parse_maintainers metaAttr.maintainers).1.foldl
              (fun d m => dinsert d m.github_id m) st.bulk_maintainers := by
        simp [ingestStep, hm, parse_meta]
      rw [hstep]
      exact keyinv_foldl_dinsert NixMaintainer.github_id _ _ h

theorem phase1_license_keyinv (parent : Nat)
    (evals : List EvaluatedAttribute) :
    ∀ st : Phase1, (∀ p ∈ st.bulk_licenses, p.2.spdx_id = p.1) →
      ∀ p ∈ (evals.foldl (ingestStep parent) st).bulk_licenses,
        p.2.spdx_id = p.1 := by
  induction evals with
  | nil => intro st h; exact h
  | cons a evals ih =>
    intro st h
    simp only [List.foldl_cons]
    refine ih _ ?_
    cases hm : a.meta with
    | none => simpa [ingestStep, hm] using h
    | some metaAttr =>
      have hstep : (ingestStep parent st a).bulk_licenses
          = (parse_licenses metaAttr.license).1.foldl
              (fun d l => dinsert d l.spdx_id l) st.bulk_licenses := by
        simp [ingestStep, hm, parse_meta]
      rw [hstep]
      exact keyinv_foldl_dinsert NixLicense.spdx_id _ _ h

theorem tlookup_append_single {ρ κ : Type} [DecidableEq κ] (key : ρ → κ)
    (k : κ) (pk : Nat) (r : ρ) :
    ∀ table : List (Nat × ρ),
      tlookup key k (table ++ [(pk, r)])
        = oor (tlookup key k table) (if key r = k then some r else none) := by
  intro table
  induction table with
  | nil => simp [tlookup, oor]
  | cons p table ih =>
    by_cases hp : key p.2 = k
    · simp [tlookup, hp, oor]
    · simp [tlookup, hp, ih]

theorem tlookup_map_upd_eq {ρ κ : Type} [DecidableEq κ] (key : ρ → κ)
    (upd : ρ → ρ → ρ) (hkey : ∀ o r, key (upd o r) = key o) (r : ρ) :
    ∀ table : List (Nat × ρ),
      tlookup key (key r) (table.map (fun p =>
          if key p.2 = key r then (p.1, upd p.2 r) else p))
        = (tlookup key (key r) table).map (fun o => upd o r) := by
  intro table
  induction table with
  | nil => rfl
  | cons p table ih =>
    obtain ⟨pk0, v0⟩ := p
    simp only [List.map_cons]
    by_cases hc : key v0 = key r
    · have h1 : key (upd v0 r) = key r := by rw [hkey, hc]
      rw [if_pos hc]
      simp only [tlookup, h1, hc, if_true, eq_self_iff_true]
      rfl
    · rw [if_neg hc]
      simp only [tlookup, if_neg hc, ih]

theorem tlookup_map_upd_ne {ρ κ : Type} [DecidableEq κ] (key : ρ → κ)
    (upd : ρ → ρ → ρ) (hkey : ∀ o r, key (upd o r) = key o) (r : ρ) (k : κ)
    (hk : ¬ key r = k) :
    ∀ table : List (Nat × ρ),
      tlookup key k (table.map (fun p =>
          if key p.2 = key r then (p.1, upd p.2 r) else p))
        = tlookup key k table := by
  intro table
  induction table with
  | nil => rfl
  | cons p table ih =>
    obtain ⟨pk0, v0⟩ := p
    simp only [List.map_cons]
    by_cases hc : key v0 = key r
    · have h1 : ¬ key (upd v0 r) = k := by rw [hkey, hc]; exact hk
      have h2 : ¬ key v0 = k := by rw [hc]; exact hk
      rw [if_pos hc]
      simp only [tlookup, if_neg h1, if_neg h2, ih]
    · rw [if_neg hc]
      simp only [tlookup, ih]

theorem any_key_eq_isSome {ρ κ : Type} [DecidableEq κ] (key : ρ → κ) (k : κ) :
    ∀ table : List (Nat × ρ),
      table.any (fun p => decide (key p.2 = k)) = (tlookup key k table).isSome := by
  intro table
  induction table with
  | nil => rfl
  | cons p table ih =>
    by_cases hp : key p.2 = k <;> simp [tlookup, hp, ih]

theorem bulk_create_preserve {ρ κ : Type} [DecidableEq κ] (key : ρ → κ)
    (upd : ρ → ρ → ρ) (hkey : ∀ o r, key (upd o r) = key o) (i u : Bool)
    (k : κ) :
    ∀ (rows : List ρ) (table : List (Nat × ρ)) (pk : Nat)
      (t' : List (Nat × ρ)) (pk' : Nat),
      k ∉ rows.map key →
      bulk_create_rows key upd i u (table, pk) rows = .ok (t', pk') →
      tlookup key k t' = tlookup key k table := by
  intro rows
  induction rows with
  | nil =>
    intro table pk t' pk' _ h
    simp only [bulk_create_rows, Except.ok.injEq, Prod.mk.injEq] at h
    rw [← h.1]
  | cons r rows ih =>
    intro table pk t' pk' hk h
    simp only [List.map_cons, List.mem_cons, not_or] at hk
    obtain ⟨hk1, hk2⟩ := hk
    simp only [bulk_create_rows] at h
    split at h
    · split at h
      · rw [ih _ _ _ _ hk2 h,
          tlookup_map_upd_ne key upd hkey r k (fun hh => hk1 hh.symm)]
      · split at h
        · exact ih _ _ _ _ hk2 h
        · cases h
    · rw [ih _ _ _ _ hk2 h, tlookup_append_single,
        if_neg (fun hh => hk1 hh.symm), oor_none_right]

theorem bulk_create_update {ρ κ : Type} [DecidableEq κ] (key : ρ → κ)
    (upd : ρ → ρ → ρ) (hkey : ∀ o r, key (upd o r) = key o) :
    ∀ (rows : List ρ) (table : List (Nat × ρ)) (pk : Nat)
      (t' : List (Nat × ρ)) (pk' : Nat) (r : ρ) (old : ρ),
      (rows.map key).Nodup → r ∈ rows →
      tlookup key (key r) table = some old →
      bulk_create_rows key upd false true (table, pk) rows = .ok (t', pk') →
      tlookup key (key r) t' = some (upd old r) := by
  intro rows
  induction rows with
  | nil =>
    intro _ _ _ _ _ _ _ hmem
    cases hmem
  | cons r0 rows ih =>
    intro table pk t' pk' r old hnd hmem hold h
    simp only [List.map_cons, List.nodup_cons] at hnd
    simp only [bulk_create_rows, if_true, if_false, eq_self_iff_true,
      Bool.false_eq_true] at h
    rcases List.mem_cons.mp hmem with rfl | hmem'
    · have hany : table.any (fun p => decide (key p.2 = key r)) = true := by
        rw [any_key_eq_isSome, hold]
        rfl
      rw [if_pos hany] at h
      rw [bulk_create_preserve key upd hkey false true (key r) rows _ _ _ _
          hnd.1 h,
        tlookup_map_upd_eq key upd hkey, hold]
      rfl
    · have hne : key r0 ≠ key r := by
        intro hh
        exact hnd.1 (hh ▸ List.mem_map_of_mem key hmem')
      split at h
      · refine ih _ _ _ _ r old hnd.2 hmem' ?_ h
        rw [tlookup_map_upd_ne key upd hkey r0 (key r) hne]
        exact hold
      · refine ih _ _ _ _ r old hnd.2 hmem' ?_ h
        rw [tlookup_append_single, hold]
        rfl

theorem bulk_create_ignore {ρ κ : Type} [DecidableEq κ] (key : ρ → κ)
    (upd : ρ → ρ → ρ) :
    ∀ (rows : List ρ) (table : List (Nat × ρ)) (pk : Nat)
      (t' : List (Nat × ρ)) (pk' : Nat) (k : κ) (old : ρ),
      tlookup key k table = some old →
      bulk_create_rows key upd true false (table, pk) rows = .ok (t', pk') →
      tlookup key k t' = some old := by
  intro rows
  induction rows with
  | nil =>
    intro table pk t' pk' k old hold h
    simp only [bulk_create_rows, Except.ok.injEq, Prod.mk.injEq] at h
    rw [← h.1]
    exact hold
  | cons r0 rows ih =>
    intro table pk t' pk' k old hold h
    simp only [bulk_create_rows, if_true, if_false, eq_self_iff_true,
      Bool.false_eq_true] at h
    split at h
    · exact ih _ _ _ _ _ old hold h
    · refine ih _ _ _ _ _ old ?_ h
      rw [tlookup_append_single, hold]
      rfl

theorem updateMaintainerFields_key (o r : NixMaintainer) :
    (updateMaintainerFields o r).github_id = o.github_id := rfl

theorem updateLicenseFields_key (o r : NixLicense) :
    (updateLicenseFields o r).spdx_id = o.spdx_id := rfl

/-- Decomposition of a successful `ingest` run into its store phases: the
maintainer and license bulk writes succeeded with the channel-policy
flags, and the final maintainer / license / metadata tables and the
returned derivation list are the ones those phases produced. -/
theorem ingest_ok_parts (rolling : Bool) (parent : Nat) (db : DB)
    (evals : List EvaluatedAttribute) (db' : DB) (res : List NixDerivation)
    (h : ingest rolling parent db evals = .ok (db', res)) :
    ∃ mtable pk1 ltable pk2,
      bulk_create_rows NixMaintainer.github_id updateMaintainerFields
          (!rolling) rolling (db.maintainers, db.next_pk)
          ((phase1 parent evals).bulk_maintainers.map Prod.snd)
        = .ok (mtable, pk1) ∧
      bulk_create_rows NixLicense.spdx_id updateLicenseFields
          (!rolling) rolling (db.licenses, pk1)
          ((phase1 parent evals).bulk_licenses.map Prod.snd)
        = .ok (ltable, pk2) ∧
      db'.maintainers = mtable ∧
      db'.licenses = ltable ∧
      db'.metadata
        = (insert_rows db.metadata pk2 (phase1 parent evals).metadata).1 ∧
      res = (phase1 parent evals).bulk_derivations.map
        (fun p => resolveMeta
          (insert_rows db.metadata pk2 (phase1 parent evals).metadata).2.2
          p.2) := by
  simp only [ingest] at h
  cases hbc1 : bulk_create_rows NixMaintainer.github_id
      updateMaintainerFields (!rolling) rolling (db.maintainers, db.next_pk)
      ((phase1 parent evals).bulk_maintainers.map Prod.snd) with
  | error e =>
    rw [hbc1] at h
    simp only [exbind] at h
    exact Except.noConfusion h
  | ok mr =>
    rw [hbc1] at h
    simp only [exbind] at h
    cases hbc2 : bulk_create_rows NixLicense.spdx_id updateLicenseFields
        (!rolling) rolling (db.licenses, mr.2)
        ((phase1 parent evals).bulk_licenses.map Prod.snd) with
    | error e =>
      rw [hbc2] at h
      simp only [exbind] at h
      exact Except.noConfusion h
    | ok lr =>
      rw [hbc2] at h
      simp only [exbind] at h
      cases hbt1 : build_throughs NixMaintainer.github_id
          (in_bulk NixMaintainer.github_id mr.1
            ((phase1 parent evals).bulk_maintainers.map Prod.fst))
          ((insert_rows db.metadata lr.2
              (phase1 parent evals).metadata).2.2.zip
            (phase1 parent evals).meta_maintainers) with
      | error e =>
        rw [hbt1] at h
        simp only [exbind] at h
        exact Except.noConfusion h
      | ok mthroughs =>
        rw [hbt1] at h
        simp only [exbind] at h
        cases hbt2 : build_throughs NixLicense.spdx_id
            (in_bulk NixLicense.spdx_id lr.1
              ((phase1 parent evals).bulk_licenses.map Prod.fst))
            ((insert_rows db.metadata lr.2
                (phase1 parent evals).metadata).2.2.zip
              (phase1 parent evals).meta_licenses) with
        | error e =>
          rw [hbt2] at h
          simp only [exbind] at h
          exact Except.noConfusion h
        | ok lthroughs =>
          rw [hbt2] at h
          simp only [exbind, Except.ok.injEq, Prod.ext_iff] at h
          refine ⟨mr.1, mr.2, lr.1, lr.2, rfl, hbc2, ?_, ?_, ?_, ?_⟩
          · rw [← h.1]
          · rw [← h.1]
          · rw [← h.1]
          · rw [← h.2]

theorem Json.lookup_obj (fs : List (String × Json)) (k : String) :
    (Json.obj fs).lookup k = dlookup k fs := rfl

theorem dlookup_licenseStep_ne (metaFields : List (String × Json))
    (k : String) (hk : k ≠ "license") :
    dlookup k (licenseStep metaFields) = dlookup k metaFields := by
  have hne : ¬ ("license" = k) := fun hh => hk hh.symm
  cases hlic : dlookup "license" metaFields with
  | none => simp only [licenseStep, hlic]
  | some v =>
    cases v with
    | arr xs => simp only [licenseStep, hlic]
    | str s =>
      by_cases hs : s = "unknown"
      · simp only [licenseStep, hlic, if_pos hs]
        rw [dlookup_setField, if_neg hne]
      · simp only [licenseStep, hlic, if_neg hs]
        rw [dlookup_setField, if_neg hne]
    | null =>
      simp only [licenseStep, hlic]
      rw [dlookup_setField, if_neg hne]
    | bool b =>
      simp only [licenseStep, hlic]
      rw [dlookup_setField, if_neg hne]
    | num n =>
      simp only [licenseStep, hlic]
      rw [dlookup_setField, if_neg hne]
    | obj fs =>
      simp only [licenseStep, hlic]
      rw [dlookup_setField, if_neg hne]

theorem licenseStep_license_arr_or_none (metaFields : List (String × Json)) :
    (∃ xs, dlookup "license" (licenseStep metaFields) = some (.arr xs)) ∨
      dlookup "license" (licenseStep metaFields) = none := by
  cases hlic : dlookup "license" metaFields with
  | none =>
    right
    simp only [licenseStep, hlic]
  | some v =>
    cases v with
    | arr xs =>
      left
      refine ⟨xs, ?_⟩
      simp only [licenseStep, hlic]
    | str s =>
      by_cases hs : s = "unknown"
      · left
        refine ⟨[], ?_⟩
        simp only [licenseStep, hlic, if_pos hs]
        rw [dlookup_setField, if_pos rfl]
      · left
        refine ⟨[.obj [("fullName", .str s)]], ?_⟩
        simp only [licenseStep, hlic, if_neg hs]
        rw [dlookup_setField, if_pos rfl]
    | null =>
      left
      refine ⟨[.null], ?_⟩
      simp only [licenseStep, hlic]
      rw [dlookup_setField, if_pos rfl]
    | bool b =>
      left
      refine ⟨[.bool b], ?_⟩
      simp only [licenseStep, hlic]
      rw [dlookup_setField, if_pos rfl]
    | num n =>
      left
      refine ⟨[.num n], ?_⟩
      simp only [licenseStep, hlic]
      rw [dlookup_setField, if_pos rfl]
    | obj fs =>
      left
      refine ⟨[.obj fs], ?_⟩
      simp only [licenseStep, hlic]
      rw [dlookup_setField, if_pos rfl]

theorem licenseStep_of_arr_or_none (metaFields : List (String × Json))
    (h : (∃ xs, dlookup "license" metaFields = some (.arr xs)) ∨
      dlookup "license" metaFields = none) :
    licenseStep metaFields = metaFields := by
  rcases h with ⟨xs, hx⟩ | hx <;> simp only [licenseStep, hx]

/-- Shape of a successful fixup when the metadata block is a (non-null)
object: the result replaces the metadata by its normalized form, itself
either the license-normalized fields with re-assigned maintainers (when a
list-valued maintainers field is present) or just the license-normalized
fields. -/
theorem fixup_obj_shape (rawFields metaFields : List (String × Json))
    (out : Json)
    (hmeta : dlookup "meta" rawFields = some (.obj metaFields))
    (hok : fixup_evaluated_attribute (.obj rawFields) = .ok out) :
    (∃ ms newms,
      dlookup "maintainers" (licenseStep metaFields) = some (.arr ms) ∧
      expandMaintainers ms = .ok newms ∧
      out = .obj (setField rawFields "meta"
        (.obj (setField (licenseStep metaFields) "maintainers"
          (.arr newms))))) ∨
    ((∀ ms, dlookup "maintainers" (licenseStep metaFields) ≠ some (.arr ms)) ∧
      out = .obj (setField rawFields "meta" (.obj (licenseStep metaFields)))) := by
  cases hmt : dlookup "maintainers" (licenseStep metaFields) with
  | none =>
    simp only [fixup_evaluated_attribute, hmeta, hmt, Except.ok.injEq] at hok
    right
    exact ⟨(fun ms hh => Option.noConfusion hh), hok.symm⟩
  | some v =>
    cases v with
    | arr ms =>
      cases hexp : expandMaintainers ms with
      | error e =>
        simp only [fixup_evaluated_attribute, hmeta, hmt, hexp] at hok
        exact Except.noConfusion hok
      | ok newms =>
        simp only [fixup_evaluated_attribute, hmeta, hmt, hexp,
          Except.ok.injEq] at hok
        left
        exact ⟨ms, newms, rfl, hexp, hok.symm⟩
    | null =>
      simp only [fixup_evaluated_attribute, hmeta, hmt, Except.ok.injEq] at hok
      right
      exact ⟨(fun ms hh => by simp at hh), hok.symm⟩
    | bool b =>
      simp only [fixup_evaluated_attribute, hmeta, hmt, Except.ok.injEq] at hok
      right
      exact ⟨(fun ms hh => by simp at hh), hok.symm⟩
    | num n =>
      simp only [fixup_evaluated_attribute, hmeta, hmt, Except.ok.injEq] at hok
      right
      exact ⟨(fun ms hh => by simp at hh), hok.symm⟩
    | str sv =>
      simp only [fixup_evaluated_attribute, hmeta, hmt, Except.ok.injEq] at hok
      right
      exact ⟨(fun ms hh => by simp at hh), hok.symm⟩
    | obj fs =>
      simp only [fixup_evaluated_attribute, hmeta, hmt, Except.ok.injEq] at hok
      right
      exact ⟨(fun ms hh => by simp at hh), hok.symm⟩

/-- The license value of the fixed-up metadata is the license value
produced by the license-normalization step. -/
theorem fixup_out_license (rawFields metaFields : List (String × Json))
    (out : Json)
    (hmeta : dlookup "meta" rawFields = some (.obj metaFields))
    (hok : fixup_evaluated_attribute (.obj rawFields) = .ok out) :
    (out.lookup "meta").bind (fun m => m.lookup "license")
      = dlookup "license" (licenseStep metaFields) := by
  rcases fixup_obj_shape rawFields metaFields out hmeta hok with
    ⟨ms, newms, hmt, hexp, hout⟩ | ⟨hmt, hout⟩
  · simp [hout, Json.lookup, dlookup_setField]
  · simp [hout, Json.lookup, dlookup_setField]

/-- A record whose evaluator-reported error field is a non-null string. -/
def c3raw : Json :=
  .obj [("attr", .str "pkg"), ("attr_path", .arr [.str "pkg"]),
    ("error", .str "evaluation aborted")]

/-- C3: on a record with a non-null error field, `parse_evaluation_result`
returns the failure variant — `evaluation` is none, so no fixup is
performed, and the attribute and attribute path of the record are carried —
but the `error` field of the result is none: the error text of the record
"evaluation aborted" is discarded instead of being carried in the `error`
field, because the Python constructor passes `error=None` unconditionally,
contradicting the claim (and the docstring of `PartialEvaluatedAttribute`,
which tells the reader to consult `error`). -/
theorem c3_error_text_discarded :
    (parse_evaluation_result c3raw).evaluation = none ∧
    (parse_evaluation_result c3raw).attr = some (.str "pkg") ∧
    (parse_evaluation_result c3raw).attr_path = some (.arr [.str "pkg"]) ∧
    (parse_evaluation_result c3raw).error = none :=
  ⟨rfl, rfl, rfl, rfl⟩

/-- C7: for a raw record whose metadata block is a (non-null) object, a
successful fixup normalizes the license field as claimed: the literal
string "unknown" becomes the empty list; any other single string becomes a
one-element list holding a license object whose only field is the full
name; a single non-list object becomes a one-element list holding that
object unchanged; an already-list-valued field is left as is. -/
theorem c7_license_fixup_normalization
    (rawFields metaFields : List (String × Json)) (out : Json)
    (hmeta : dlookup "meta" rawFields = some (.obj metaFields))
    (hok : fixup_evaluated_attribute (.obj rawFields) = .ok out) :
    (dlookup "license" metaFields = some (.str "unknown") →
      (out.lookup "meta").bind (fun m => m.lookup "license")
        = some (.arr [])) ∧
    (∀ s, s ≠ "unknown" → dlookup "license" metaFields = some (.str s) →
      (out.lookup "meta").bind (fun m => m.lookup "license")
        = some (.arr [.obj [("fullName", .str s)]])) ∧
    (∀ fs, dlookup "license" metaFields = some (.obj fs) →
      (out.lookup "meta").bind (fun m => m.lookup "license")
        = some (.arr [.obj fs])) ∧
    (∀ xs, dlookup "license" metaFields = some (.arr xs) →
      (out.lookup "meta").bind (fun m => m.lookup "license")
        = some (.arr xs)) := by
  have hL := fixup_out_license rawFields metaFields out hmeta hok
  refine ⟨?_, ?_, ?_, ?_⟩
  · intro hlic
    rw [hL]
    simp only [licenseStep, hlic, if_true, eq_self_iff_true]
    rw [dlookup_setField, if_pos rfl]
  · intro s hs hlic
    rw [hL]
    simp only [licenseStep, hlic, if_neg hs]
    rw [dlookup_setField, if_pos rfl]
  · intro fs hlic
    rw [hL]
    simp only [licenseStep, hlic]
    rw [dlookup_setField, if_pos rfl]
  · intro xs hlic
    rw [hL]
    simp only [licenseStep, hlic]

/-- A record whose license field is the literal string "unknown". -/
def c7rawFields : List (String × Json) :=
  [("attr", .str "x"), ("meta", .obj [("license", .str "unknown")])]

/-- The fixed-up form of `c7rawFields`. -/
def c7out : Json :=
  .obj [("attr", .str "x"), ("meta", .obj [("license", .arr [])])]

/-- Witness for C7 at a concrete record: the "unknown" license collapses
to the empty list. -/
theorem c7_license_fixup_normalization_witness :
    fixup_evaluated_attribute (.obj c7rawFields) = .ok c7out ∧
    (c7out.lookup "meta").bind (fun m => m.lookup "license")
      = some (.arr []) :=
  ⟨rfl,
   (c7_license_fixup_normalization c7rawFields [("license", .str "unknown")]
      c7out rfl rfl).1 rfl⟩

/-- A maintainer entry that the team-expansion loop passes through
unchanged: an object without a non-null `shortName` field. -/
def plainEntry (m : Json) : Bool :=
  match m with
  | .obj fields =>
    match Json.getNonNull (.obj fields) "shortName" with
    | some _ => false
    | none => true
  | _ => false

/-- A record whose maintainers list (when present as a list under a
non-null metadata object) consists only of plain maintainer entries — the
shape the first fixup application produces when no team nests another
team. -/
def maintainersPlain (j : Json) : Bool :=
  match j with
  | .obj rawFields =>
    match dlookup "meta" rawFields with
    | some (.obj metaFields) =>
      match dlookup "maintainers" metaFields with
      | some (.arr ms) => ms.all plainEntry
      | _ => true
    | _ => true
  | _ => true

theorem expandMaintainers_of_plain (ms : List Json)
    (h : ms.all plainEntry = true) : expandMaintainers ms = .ok ms := by
  induction ms with
  | nil => rfl
  | cons m ms ih =>
    simp only [List.all_cons, Bool.and_eq_true] at h
    have hm : expandMaintainer m = .ok [m] := by
      cases m with
      | obj fields =>
        cases hsn : Json.getNonNull (.obj fields) "shortName" with
        | some v => simp [plainEntry, hsn] at h
        | none => simp [expandMaintainer, hsn]
      | null => simp [plainEntry] at h
      | bool b => simp [plainEntry] at h
      | num n => simp [plainEntry] at h
      | str s => simp [plainEntry] at h
      | arr xs => simp [plainEntry] at h
    simp only [expandMaintainers, hm, ih h.2, List.singleton_append]

/-- A maintainer list holding one team entry whose member is itself a
team. -/
def c8raw : Json :=
  .obj [("attr", .str "x"),
    ("meta", .obj [("maintainers", .arr
      [.obj [("shortName", .str "t"),
        ("members", .arr
          [.obj [("shortName", .str "u"), ("members", .arr [])]])]])])]

/-- The first fixup of `c8raw`: the outer team is replaced by its single
member, which still carries a `shortName`. -/
def c8out : Json :=
  .obj [("attr", .str "x"),
    ("meta", .obj [("maintainers", .arr
      [.obj [("shortName", .str "u"), ("members", .arr [])]])])]

/-- The second fixup: the surviving team entry is expanded again, to an
empty maintainer list. -/
def c8out2 : Json :=
  .obj [("attr", .str "x"),
    ("meta", .obj [("maintainers", .arr [])])]

/-- C8 counterexample: on a record whose maintainer team has a team as
member, the second application of the fixup does not reproduce the first
output of the first application — the nested team is expanded one level
further — so
the fixup is not idempotent on every raw record. -/
theorem c8_fixup_not_idempotent :
    fixup_evaluated_attribute c8raw = .ok c8out ∧
    fixup_evaluated_attribute c8out = .ok c8out2 ∧
    c8out ≠ c8out2 := by
  refine ⟨rfl, rfl, ?_⟩
  intro h
  simp [c8out, c8out2] at h

/-- C8 amended: the fixup is idempotent on every record it accepts whose
fixed-up maintainer list contains only plain (non-team) entries — in
particular on any record whose team entries list only plain maintainers
as members.  (The counterexample shows the unrestricted claim fails when
a member of a team is itself a team: the second application expands it
again.) -/
theorem c8_fixup_idempotent_of_plain (raw out : Json)
    (hok : fixup_evaluated_attribute raw = .ok out)
    (hplain : maintainersPlain out = true) :
    fixup_evaluated_attribute out = .ok out := by
  cases raw with
  | null => simp [fixup_evaluated_attribute] at hok
  | bool b => simp [fixup_evaluated_attribute] at hok
  | num n => simp [fixup_evaluated_attribute] at hok
  | str s => simp [fixup_evaluated_attribute] at hok
  | arr xs => simp [fixup_evaluated_attribute] at hok
  | obj rawFields =>
    cases hmeta : dlookup "meta" rawFields with
    | none =>
      have hout : out = .obj rawFields := by
        simp only [fixup_evaluated_attribute, hmeta, Except.ok.injEq] at hok
        exact hok.symm
      subst hout
      simp only [fixup_evaluated_attribute, hmeta]
    | some v =>
      cases v with
      | null =>
        have hout : out = .obj rawFields := by
          simp only [fixup_evaluated_attribute, hmeta, Except.ok.injEq] at hok
          exact hok.symm
        subst hout
        simp only [fixup_evaluated_attribute, hmeta]
      | bool b => simp [fixup_evaluated_attribute, hmeta] at hok
      | num n => simp [fixup_evaluated_attribute, hmeta] at hok
      | str s => simp [fixup_evaluated_attribute, hmeta] at hok
      | arr xs => simp [fixup_evaluated_attribute, hmeta] at hok
      | obj metaFields =>
        rcases fixup_obj_shape rawFields metaFields out hmeta hok with
          ⟨ms, newms, hmt, hexp, hout⟩ | ⟨hmt, hout⟩
        · subst hout
          have h1 : dlookup "meta" (setField rawFields "meta"
              (.obj (setField (licenseStep metaFields) "maintainers"
                (.arr newms))))
              = some (.obj (setField (licenseStep metaFields) "maintainers"
                (.arr newms))) := by
            rw [dlookup_setField, if_pos rfl]
          have h2 : dlookup "license"
              (setField (licenseStep metaFields) "maintainers" (.arr newms))
              = dlookup "license" (licenseStep metaFields) := by
            rw [dlookup_setField, if_neg (by decide)]
          have h3 : licenseStep
              (setField (licenseStep metaFields) "maintainers" (.arr newms))
              = setField (licenseStep metaFields) "maintainers"
                (.arr newms) := by
            refine licenseStep_of_arr_or_none _ ?_
            rw [h2]
            exact licenseStep_license_arr_or_none metaFields
          have h4 : dlookup "maintainers"
              (setField (licenseStep metaFields) "maintainers" (.arr newms))
              = some (.arr newms) := by
            rw [dlookup_setField, if_pos rfl]
          have h5 : newms.all plainEntry = true := by
            simp only [maintainersPlain, h1, h4] at hplain
            exact hplain
          have h6 := expandMaintainers_of_plain newms h5
          simp only [fixup_evaluated_attribute, h1, h3, h4, h6,
            setField_self h4, setField_self h1]
        · subst hout
          have h1 : dlookup "meta"
              (setField rawFields "meta" (.obj (licenseStep metaFields)))
              = some (.obj (licenseStep metaFields)) := by
            rw [dlookup_setField, if_pos rfl]
          have h3 : licenseStep (licenseStep metaFields)
              = licenseStep metaFields :=
            licenseStep_of_arr_or_none _
              (licenseStep_license_arr_or_none metaFields)
          cases hmt2 : dlookup "maintainers" (licenseStep metaFields) with
          | none =>
            simp only [fixup_evaluated_attribute, h1, h3, hmt2,
              setField_self h1]
          | some w =>
            cases w with
            | arr ms => exact absurd hmt2 (hmt ms)
            | null =>
              simp only [fixup_evaluated_attribute, h1, h3, hmt2,
                setField_self h1]
            | bool b =>
              simp only [fixup_evaluated_attribute, h1, h3, hmt2,
                setField_self h1]
            | num n =>
              simp only [fixup_evaluated_attribute, h1, h3, hmt2,
                setField_self h1]
            | str s =>
              simp only [fixup_evaluated_attribute, h1, h3, hmt2,
                setField_self h1]
            | obj fs =>
              simp only [fixup_evaluated_attribute, h1, h3, hmt2,
                setField_self h1]

/-- A record with one team entry whose members are plain maintainers plus
one plain maintainer entry. -/
def c8wraw : Json :=
  .obj [("attr", .str "y"),
    ("meta", .obj [("maintainers", .arr
      [.obj [("shortName", .str "t"),
        ("members", .arr
          [.obj [("github_id", .num 1)], .obj [("github_id", .num 2)]])],
       .obj [("github_id", .num 3)]])])]

/-- The fixed-up form of `c8wraw`: the team is flattened into its two
members. -/
def c8wout : Json :=
  .obj [("attr", .str "y"),
    ("meta", .obj [("maintainers", .arr
      [.obj [("github_id", .num 1)], .obj [("github_id", .num 2)],
       .obj [("github_id", .num 3)]])])]

/-- Witness for the amended C8: a record with a team of two plain members
and one plain maintainer fixes up to three plain entries, and a second
fixup application reproduces that output exactly. -/
theorem c8_fixup_idempotent_of_plain_witness :
    fixup_evaluated_attribute c8wraw = .ok c8wout ∧
    maintainersPlain c8wout = true ∧
    fixup_evaluated_attribute c8wout = .ok c8wout :=
  ⟨rfl, rfl, c8_fixup_idempotent_of_plain c8wraw c8wout rfl rfl⟩

/-- An attribute whose metadata block carries the empty string as name. -/
def c4a : EvaluatedAttribute :=
  { attr := "a", attr_path := ["a"], name := "n", drv_path := "/d"
  , system := "s", outputs := [], meta := some { name := some "" } }

/-- The same attribute with no metadata name at all. -/
def c4b : EvaluatedAttribute :=
  { attr := "a", attr_path := ["a"], name := "n", drv_path := "/d"
  , system := "s", outputs := [], meta := some { name := none } }

/-- C4 counterexample: two parsed attributes agreeing on derivation path,
attribute path and name but differing in the metadata name (empty string
versus absent) receive the same key — `meta.name or None` collapses the
empty string to null — so differing in one of the four fields does not
guarantee different keys. -/
theorem c4_as_key_collapses_empty_name :
    c4a.meta.bind MetadataAttribute.name ≠ c4b.meta.bind MetadataAttribute.name ∧
    c4a.drv_path = c4b.drv_path ∧
    c4a.attr = c4b.attr ∧
    c4a.name = c4b.name ∧
    c4a.as_key = c4b.as_key := by
  refine ⟨?_, rfl, rfl, rfl, rfl⟩
  decide

/-- C4 amended: the identity key function is total (it is a function), and
two parsed attributes receive equal keys exactly when they agree on
derivation path, attribute path, name, and the metadata name *normalized
by Python truthiness* — an empty-string metadata name and an absent one
are identified with null. -/
theorem c4_as_key_characterization (a b : EvaluatedAttribute) :
    a.as_key = b.as_key ↔
      (a.drv_path = b.drv_path ∧ a.attr = b.attr ∧ a.name = b.name ∧
        pyStrOrNone (a.meta.bind MetadataAttribute.name)
          = pyStrOrNone (b.meta.bind MetadataAttribute.name)) := by
  have ha : a.as_key = (a.drv_path, a.attr, a.name,
      pyStrOrNone (a.meta.bind MetadataAttribute.name)) := by
    cases hm : a.meta <;> simp [EvaluatedAttribute.as_key, hm, pyStrOrNone]
  have hb : b.as_key = (b.drv_path, b.attr, b.name,
      pyStrOrNone (b.meta.bind MetadataAttribute.name)) := by
    cases hm : b.meta <;> simp [EvaluatedAttribute.as_key, hm, pyStrOrNone]
  rw [ha, hb]
  simp [Prod.ext_iff]

theorem shellData_resolveMeta (pks : List Nat) (d : NixDerivation) :
    shellData (resolveMeta pks d) = shellData d := by
  cases hm : d.metadata <;> simp [shellData, resolveMeta, hm]

/-- C2: for every successful ingestion, the number of Derivation rows
returned equals the number of distinct identity keys among the input
attributes; the rows written are exactly the values of the key-indexed
derivation dict of the single pass; and the dict entry surviving at a key
carries the field values (attribute name with system suffix stripped,
derivation path, name, system, owning evaluation, metadata presence) of
the last input attribute bearing that key. -/
theorem c2_derivation_dedup (rolling : Bool) (parent : Nat) (db : DB)
    (evals : List EvaluatedAttribute) (db' : DB) (res : List NixDerivation)
    (h : ingest rolling parent db evals = .ok (db', res)) :
    res.length = (evals.map EvaluatedAttribute.as_key).dedup.length ∧
    res.map shellData
      = (phase1 parent evals).bulk_derivations.map (fun p => shellData p.2) ∧
    (∀ k aL, (evals.filter (fun a => decide (a.as_key = k))).getLast?
        = some aL →
      (dlookup k (phase1 parent evals).bulk_derivations).map shellData
        = some (shellDataOf parent aL)) := by
  obtain ⟨mtable, pk1, ltable, pk2, hbc1, hbc2, hmt, hlt, hmeta, hres⟩ :=
    ingest_ok_parts rolling parent db evals db' res h
  refine ⟨?_, ?_, ?_⟩
  · rw [hres, List.length_map, phase1_derivation_count]
  · rw [hres, List.map_map]
    have hfun : (shellData ∘ fun p :
        (String × String × String × Option String) × NixDerivation =>
          resolveMeta (insert_rows db.metadata pk2
            (phase1 parent evals).metadata).2.2 p.2)
        = fun p => shellData p.2 :=
      funext fun p => shellData_resolveMeta _ _
    rw [hfun]
  · intro k aL hlast
    have hch := phase1_derivation_lookup parent k evals initPhase1
    rw [phase1, hch, hlast,
      show dlookup k initPhase1.bulk_derivations = none from rfl]
    rfl

/-- An attribute evaluated on one system, with metadata. -/
def c2a1 : EvaluatedAttribute :=
  { attr := "foo.x86_64-linux", attr_path := ["foo"], name := "foo-1.0"
  , drv_path := "/nix/store/aaa", system := "x86_64-linux", outputs := []
  , meta := some { name := none } }

/-- The same attribute evaluated on another system: identical identity key
(the key ignores the system), different system field. -/
def c2a2 : EvaluatedAttribute :=
  { attr := "foo.x86_64-linux", attr_path := ["foo"], name := "foo-1.0"
  , drv_path := "/nix/store/aaa", system := "aarch64-linux", outputs := []
  , meta := none }

/-- The result of ingesting the two key-sharing attributes above into an
empty store under a rolling channel. -/
def c2pair : DB × List NixDerivation :=
  match ingest true 0 emptyDB [c2a1, c2a2] with
  | .ok p => p
  | .error _ => (emptyDB, [])

/-- Witness for C2 at a concrete batch: the two attributes share one
identity key, so exactly one Derivation row is written. -/
theorem c2_derivation_dedup_witness :
    ingest true 0 emptyDB [c2a1, c2a2] = .ok (c2pair.1, c2pair.2) ∧
    c2pair.2.length
      = ([c2a1, c2a2].map EvaluatedAttribute.as_key).dedup.length ∧
    c2pair.2.length = 1 :=
  ⟨rfl,
   (c2_derivation_dedup true 0 emptyDB [c2a1, c2a2] c2pair.1 c2pair.2
      rfl).1,
   rfl⟩

theorem insert_rows_length {ρ : Type} (rows : List ρ) :
    ∀ (table : List (Nat × ρ)) (pk : Nat),
      (insert_rows table pk rows).1.length = table.length + rows.length := by
  induction rows with
  | nil => intro table pk; simp [insert_rows]
  | cons r rows ih =>
    intro table pk
    simp only [insert_rows]
    rw [ih]
    simp
    omega

/-- C9 amended: every ingestion writes exactly one Metadata row per input
attribute with a non-null metadata block — per attribute, not per
persisted Derivation, so on identity-key collisions where both attributes
carry metadata the Metadata rows outnumber the Derivation rows. -/
theorem c9_metadata_per_attribute (rolling : Bool) (parent : Nat) (db : DB)
    (evals : List EvaluatedAttribute) (db' : DB) (res : List NixDerivation)
    (h : ingest rolling parent db evals = .ok (db', res)) :
    db'.metadata.length
      = db.metadata.length + evals.countP (fun a => a.meta.isSome) := by
  obtain ⟨mtable, pk1, ltable, pk2, hbc1, hbc2, hmt, hlt, hmeta, hres⟩ :=
    ingest_ok_parts rolling parent db evals db' res h
  rw [hmeta, insert_rows_length]
  congr 1
  have := phase1_metadata_count parent evals initPhase1
  rw [phase1, this]
  simp [initPhase1]

/-- An attribute with metadata. -/
def c9a1 : EvaluatedAttribute :=
  { attr := "bar.x86_64-linux", attr_path := ["bar"], name := "bar-2.0"
  , drv_path := "/nix/store/bbb", system := "x86_64-linux", outputs := []
  , meta := some { name := some "bar-2.0" } }

/-- A second attribute with the same identity key (only the system
differs) that also carries metadata. -/
def c9a2 : EvaluatedAttribute :=
  { attr := "bar.x86_64-linux", attr_path := ["bar"], name := "bar-2.0"
  , drv_path := "/nix/store/bbb", system := "i686-linux", outputs := []
  , meta := some { name := some "bar-2.0", description := some "other" } }

/-- The result of ingesting the two attributes above into an empty
store. -/
def c9pair : DB × List NixDerivation :=
  match ingest true 0 emptyDB [c9a1, c9a2] with
  | .ok p => p
  | .error _ => (emptyDB, [])

/-- C9 counterexample: two attributes sharing one identity key, both with
metadata, produce two Metadata rows but only one Derivation row — the
number of Metadata rows written exceeds the number of Derivation rows,
contradicting the claimed 1:1 correspondence. -/
theorem c9_metadata_not_one_to_one :
    ingest true 0 emptyDB [c9a1, c9a2] = .ok (c9pair.1, c9pair.2) ∧
    c9pair.1.metadata.length = 2 ∧
    c9pair.2.length = 1 :=
  ⟨rfl, rfl, rfl⟩

/-- Witness for the amended C9 at the same concrete batch: both
attributes carry metadata, so two Metadata rows are written into the
empty store. -/
theorem c9_metadata_per_attribute_witness :
    c9pair.1.metadata.length
      = emptyDB.metadata.length
        + [c9a1, c9a2].countP (fun a => a.meta.isSome) :=
  c9_metadata_per_attribute true 0 emptyDB [c9a1, c9a2] c9pair.1 c9pair.2
    rfl

/-- A maintainer list with two entries sharing GitHub id 1 but different
names. -/
def c5ms : List MaintainerAttribute :=
  [{ name := "A", github := some "a", github_id := some 1 },
   { name := "B", github := some "b", github_id := some 1 }]

/-- One attribute whose metadata carries the duplicate-id maintainer
list. -/
def c5a : EvaluatedAttribute :=
  { attr := "qux.x86_64-linux", attr_path := ["qux"], name := "qux-1"
  , drv_path := "/nix/store/ccc", system := "x86_64-linux", outputs := []
  , meta := some { name := none, maintainers := c5ms } }

/-- C5 counterexample: with two candidates for GitHub id 1 inside one
maintainer list of one attribute, the batch-reconciled mapping keeps the
fields of the first-seen candidate ("A"), not those of the last-seen-in-batch
candidate ("B") — the `seen` set of the per-attribute extractor drops later
duplicates before the dict is built, so last-seen-in-batch does not win
on within-attribute collisions. -/
theorem c5_first_wins_within_attribute :
    dlookup 1 (phase1 0 [c5a]).bulk_maintainers
      = some { github_id := 1, github := some "a", email := none
             , matrix := none, name := "A" } ∧
    (c5ms.filter (fun m => m.github_id = some 1)).getLast?
      = some { name := "B", github := some "b", github_id := some 1 } ∧
    ("A" : String) ≠ "B" :=
  ⟨rfl, rfl, by decide⟩

/-- C5 amended: the batch-wide reconciliation produces at most one entry
per external GitHub id and at most one per SPDX id, and the surviving
candidate at an id is the contribution of the *last attribute* in batch
order containing that id — where the contribution of an attribute is the
*first* entry with that id in its own maintainer (resp. license) list,
later within-attribute duplicates being dropped silently. -/
theorem c5_reconciliation_last_attribute_first_entry (parent : Nat)
    (evals : List EvaluatedAttribute) :
    ((phase1 parent evals).bulk_maintainers.map Prod.fst).Nodup ∧
    ((phase1 parent evals).bulk_licenses.map Prod.fst).Nodup ∧
    (∀ g, dlookup g (phase1 parent evals).bulk_maintainers
        = (evals.filterMap (contribM g)).getLast?) ∧
    (∀ s, dlookup s (phase1 parent evals).bulk_licenses
        = (evals.filterMap (contribL s)).getLast?) := by
  refine ⟨?_, ?_, ?_, ?_⟩
  · exact phase1_maintainer_keys_nodup parent evals initPhase1
      List.nodup_nil
  · exact phase1_license_keys_nodup parent evals initPhase1 List.nodup_nil
  · intro g
    have hch := phase1_maintainer_lookup parent g evals initPhase1
    rw [phase1, hch,
      show dlookup g initPhase1.bulk_maintainers = none from rfl,
      oor_none_right]
  · intro s
    have hch := phase1_license_lookup parent s evals initPhase1
    rw [phase1, hch,
      show dlookup s initPhase1.bulk_licenses = none from rfl,
      oor_none_right]

/-- Removal of the unrepresentable entities from a metadata block: the
maintainer entries without a GitHub id and the license entries without an
SPDX id. -/
def scrubMeta (m : MetadataAttribute) : MetadataAttribute :=
  { m with
    maintainers := m.maintainers.filter (fun x => x.github_id.isSome)
    license := m.license.filter (fun l => l.spdx_id.isSome) }

/-- Removal of the unrepresentable entities from one attribute. -/
def scrubAttr (a : EvaluatedAttribute) : EvaluatedAttribute :=
  { a with meta := a.meta.map scrubMeta }

theorem as_key_scrub (a : EvaluatedAttribute) :
    (scrubAttr a).as_key = a.as_key := by
  cases hm : a.meta <;>
    simp [scrubAttr, scrubMeta, EvaluatedAttribute.as_key, hm]

theorem parse_meta_scrub (m : MetadataAttribute) :
    parse_meta (scrubMeta m) = parse_meta m := by
  unfold parse_meta
  rw [show (scrubMeta m).maintainers
      = m.maintainers.filter (fun x => x.github_id.isSome) from rfl,
    show (scrubMeta m).license
      = m.license.filter (fun l => l.spdx_id.isSome) from rfl]
  rw [show parse_maintainers
        (m.maintainers.filter (fun x => x.github_id.isSome))
      = parse_maintainersAux []
        (m.maintainers.filter (fun x => x.github_id.isSome)) from rfl]
  rw [parse_maintainersAux_filter]
  rw [show parse_licenses (m.license.filter (fun l => l.spdx_id.isSome))
      = parse_licensesAux []
        (m.license.filter (fun l => l.spdx_id.isSome)) from rfl]
  rw [parse_licensesAux_filter]
  rfl

theorem ingestStep_scrub (parent : Nat) (st : Phase1)
    (a : EvaluatedAttribute) :
    ingestStep parent st (scrubAttr a) = ingestStep parent st a := by
  cases hm : a.meta with
  | none =>
    have hsm : (scrubAttr a).meta = none := by simp [scrubAttr, hm]
    simp only [ingestStep, hm, hsm]
    rw [as_key_scrub]
    simp [scrubAttr, make_derivation_shell]
  | some metaAttr =>
    have hsm : (scrubAttr a).meta = some (scrubMeta metaAttr) := by
      simp [scrubAttr, hm]
    simp only [ingestStep, hm, hsm, parse_meta_scrub]
    rw [as_key_scrub]
    simp [scrubAttr, make_derivation_shell]

theorem phase1_scrub (parent : Nat) (evals : List EvaluatedAttribute) :
    phase1 parent (evals.map scrubAttr) = phase1 parent evals := by
  rw [phase1, phase1, List.foldl_map]
  simp only [ingestStep_scrub]

/-- C6: an entity without a reconciliation key is invisible to the store:
ingesting a batch from which every null-GitHub-id maintainer entry and
every null-SPDX-id license entry has been removed produces exactly the
same store result (every table, including both association tables, and the
returned derivations) as ingesting the original batch — so such entries
never produce a Maintainer / License row nor any association row — while
each dropped entry is diagnosed by the extractor, and ingestion continues
normally. -/
theorem c6_null_id_entities_dropped (rolling : Bool) (parent : Nat)
    (db : DB) (evals : List EvaluatedAttribute)
    (ms : List MaintainerAttribute) (m : MaintainerAttribute)
    (ls : List LicenseAttribute) (lic : LicenseAttribute)
    (hm : m ∈ ms) (hmid : m.github_id = none)
    (hl : lic ∈ ls) (hlid : lic.spdx_id = none) :
    ingest rolling parent db (evals.map scrubAttr)
      = ingest rolling parent db evals ∧
    LogEvent.skipMaintainer m.name (missingOf m)
      ∈ (parse_maintainers ms).2 ∧
    LogEvent.skipLicense lic ∈ (parse_licenses ls).2 := by
  refine ⟨?_, ?_, ?_⟩
  · simp only [ingest, phase1_scrub]
  · rw [show (parse_maintainers ms).2 = (parse_maintainersAux [] ms).2
        from rfl,
      parse_maintainersAux_logs]
    exact List.mem_filterMap.mpr ⟨m, hm, by simp [hmid]⟩
  · rw [show (parse_licenses ls).2 = (parse_licensesAux [] ls).2 from rfl,
      parse_licensesAux_logs]
    exact List.mem_filterMap.mpr ⟨lic, hl, by simp [hlid]⟩

/-- A maintainer entry with no GitHub id. -/
def c6m : MaintainerAttribute := { name := "nobody", github := some "nb" }

/-- A license entry with no SPDX id. -/
def c6lic : LicenseAttribute := { full_name := some "Custom license" }

/-- An attribute carrying the two unrepresentable entities. -/
def c6attr : EvaluatedAttribute :=
  { attr := "baz.x86_64-linux", attr_path := ["baz"], name := "baz-1"
  , drv_path := "/nix/store/ddd", system := "x86_64-linux", outputs := []
  , meta := some { name := none, maintainers := [c6m], license := [c6lic] } }

/-- Witness for C6 at a concrete batch: dropping the null-id maintainer
and license beforehand changes nothing in the ingested store, and both
entities are diagnosed. -/
theorem c6_null_id_entities_dropped_witness :
    ingest true 0 emptyDB ([c6attr].map scrubAttr)
      = ingest true 0 emptyDB [c6attr] ∧
    LogEvent.skipMaintainer c6m.name (missingOf c6m)
      ∈ (parse_maintainers [c6m]).2 ∧
    LogEvent.skipLicense c6lic ∈ (parse_licenses [c6lic]).2 :=
  c6_null_id_entities_dropped true 0 emptyDB [c6attr] [c6m] c6m [c6lic]
    c6lic (List.mem_singleton.mpr rfl) rfl (List.mem_singleton.mpr rfl) rfl

/-- C10: a maintainer entry whose GitHub handle is null but whose GitHub
id is non-null is not dropped — it heads the candidate row list with a
null handle field — no skip diagnostic is emitted for it (the diagnostics
are exactly those of the remaining entries), and every skip diagnostic
the extractor ever emits belongs to an entry whose GitHub id is null. -/
theorem c10_null_handle_not_dropped (g : Int) (m : MaintainerAttribute)
    (ms : List MaintainerAttribute)
    (hgh : m.github = none) (hgid : m.github_id = some g) :
    (parse_maintainers (m :: ms)).1.head?
      = some { github_id := g, github := none, email := m.email
             , matrix := m.matrix, name := m.name } ∧
    (parse_maintainers (m :: ms)).2 = (parse_maintainers ms).2 ∧
    (∀ e ∈ (parse_maintainers (m :: ms)).2, ∃ m2 ∈ m :: ms,
      m2.github_id = none ∧
      e = LogEvent.skipMaintainer m2.name (missingOf m2)) := by
  refine ⟨?_, ?_, ?_⟩
  · simp [parse_maintainers, parse_maintainersAux, hgid, hgh]
  · rw [show (parse_maintainers (m :: ms)).2
        = (parse_maintainersAux [] (m :: ms)).2 from rfl,
      show (parse_maintainers ms).2 = (parse_maintainersAux [] ms).2
        from rfl,
      parse_maintainersAux_logs, parse_maintainersAux_logs,
      List.filterMap_cons_none (by simp [hgid])]
  · intro e he
    rw [show (parse_maintainers (m :: ms)).2
        = (parse_maintainersAux [] (m :: ms)).2 from rfl,
      parse_maintainersAux_logs] at he
    obtain ⟨m2, hm2, hf⟩ := List.mem_filterMap.mp he
    refine ⟨m2, hm2, ?_⟩
    cases hid : m2.github_id with
    | none =>
      rw [hid] at hf
      simp only [Option.some.injEq] at hf
      exact ⟨rfl, hf.symm⟩
    | some gid => rw [hid] at hf; cases hf

/-- A maintainer entry with a GitHub id but no handle. -/
def c10m : MaintainerAttribute :=
  { name := "handleless", github := none, github_id := some 7
  , email := some "h@example.org" }

/-- Witness for C10 at a concrete entry: the handle-less entry becomes the
sole candidate row (null handle) and no diagnostic is emitted. -/
theorem c10_null_handle_not_dropped_witness :
    (parse_maintainers [c10m]).1.head?
      = some { github_id := 7, github := none
             , email := some "h@example.org", matrix := none
             , name := "handleless" } ∧
    (parse_maintainers [c10m]).2 = (parse_maintainers ([] : List MaintainerAttribute)).2 ∧
    (∀ e ∈ (parse_maintainers [c10m]).2, ∃ m2 ∈ [c10m],
      m2.github_id = none ∧
      e = LogEvent.skipMaintainer m2.name (missingOf m2)) :=
  c10_null_handle_not_dropped 7 c10m [] rfl rfl

theorem dlookup_mem {κ α : Type} [DecidableEq κ] {d : List (κ × α)}
    {k : κ} {v : α} (h : dlookup k d = some v) : (k, v) ∈ d := by
  induction d with
  | nil => cases h
  | cons p rest ih =>
    obtain ⟨k0, v0⟩ := p
    by_cases h0 : k0 = k
    · subst h0
      simp only [dlookup, eq_self_iff_true, if_true, Option.some.injEq] at h
      subst h
      exact List.mem_cons_self _ _
    · simp only [dlookup, if_neg h0] at h
      exact List.mem_cons_of_mem _ (ih h)

/-- C1: the maintainer and license bulk writes follow the channel policy.
Given a successful ingestion over a store holding a maintainer row for
external id `g` (resp. a license row for SPDX id `s`), where the reconciled
candidates of the batch contain an incoming row for that id: under a
rolling-release channel the stored row ends up with the incoming contact
and descriptive fields (the update_fields overwrite, the unique id
untouched); under a non-rolling channel the stored row is left entirely
unchanged (insert-or-ignore). -/
theorem c1_channel_policy (rolling : Bool) (parent : Nat) (db : DB)
    (evals : List EvaluatedAttribute) (db' : DB) (res : List NixDerivation)
    (g : Int) (oldm incm : NixMaintainer) (s : String)
    (oldl incl : NixLicense)
    (h : ingest rolling parent db evals = .ok (db', res))
    (holdm : tlookup NixMaintainer.github_id g db.maintainers = some oldm)
    (hbm : dlookup g (phase1 parent evals).bulk_maintainers = some incm)
    (holdl : tlookup NixLicense.spdx_id s db.licenses = some oldl)
    (hbl : dlookup s (phase1 parent evals).bulk_licenses = some incl) :
    tlookup NixMaintainer.github_id g db'.maintainers
      = some (if rolling then updateMaintainerFields oldm incm else oldm) ∧
    tlookup NixLicense.spdx_id s db'.licenses
      = some (if rolling then updateLicenseFields oldl incl else oldl) := by
  obtain ⟨mtable, pk1, ltable, pk2, hbc1, hbc2, hmt, hlt, _, _⟩ :=
    ingest_ok_parts rolling parent db evals db' res h
  have hkinvM := phase1_maintainer_keyinv parent evals initPhase1
    (fun p hp => absurd hp (List.not_mem_nil _))
  have hkinvL := phase1_license_keyinv parent evals initPhase1
    (fun p hp => absurd hp (List.not_mem_nil _))
  have hmemM : (g, incm) ∈ (phase1 parent evals).bulk_maintainers :=
    dlookup_mem hbm
  have hmemL : (s, incl) ∈ (phase1 parent evals).bulk_licenses :=
    dlookup_mem hbl
  have hkeyincm : incm.github_id = g := hkinvM _ hmemM
  have hkeyincl : incl.spdx_id = s := hkinvL _ hmemL
  have hnodupM : (((phase1 parent evals).bulk_maintainers.map
      Prod.snd).map NixMaintainer.github_id).Nodup := by
    have hkeys := phase1_maintainer_keys_nodup parent evals initPhase1
      List.nodup_nil
    have heq : ((phase1 parent evals).bulk_maintainers.map Prod.snd).map
        NixMaintainer.github_id
        = (phase1 parent evals).bulk_maintainers.map Prod.fst := by
      rw [List.map_map]
      exact List.map_congr_left (fun p hp => hkinvM p hp)
    rw [heq]
    exact hkeys
  have hnodupL : (((phase1 parent evals).bulk_licenses.map
      Prod.snd).map NixLicense.spdx_id).Nodup := by
    have hkeys := phase1_license_keys_nodup parent evals initPhase1
      List.nodup_nil
    have heq : ((phase1 parent evals).bulk_licenses.map Prod.snd).map
        NixLicense.spdx_id
        = (phase1 parent evals).bulk_licenses.map Prod.fst := by
      rw [List.map_map]
      exact List.map_congr_left (fun p hp => hkinvL p hp)
    rw [heq]
    exact hkeys
  have hinM : incm ∈ (phase1 parent evals).bulk_maintainers.map Prod.snd :=
    List.mem_map_of_mem Prod.snd hmemM
  have hinL : incl ∈ (phase1 parent evals).bulk_licenses.map Prod.snd :=
    List.mem_map_of_mem Prod.snd hmemL
  constructor
  · rw [hmt]
    cases rolling with
    | true =>
      rw [if_pos rfl]
      have hupd := bulk_create_update NixMaintainer.github_id
        updateMaintainerFields (fun o r => rfl) _ _ _ _ _ incm oldm
        hnodupM hinM (by rw [hkeyincm]; exact holdm) hbc1
      rw [← hkeyincm]
      exact hupd
    | false =>
      rw [if_neg (by simp)]
      exact bulk_create_ignore NixMaintainer.github_id
        updateMaintainerFields _ _ _ _ _ g oldm holdm hbc1
  · rw [hlt]
    cases rolling with
    | true =>
      rw [if_pos rfl]
      have hupd := bulk_create_update NixLicense.spdx_id
        updateLicenseFields (fun o r => rfl) _ _ _ _ _ incl oldl
        hnodupL hinL (by rw [hkeyincl]; exact holdl) hbc2
      rw [← hkeyincl]
      exact hupd
    | false =>
      rw [if_neg (by simp)]
      exact bulk_create_ignore NixLicense.spdx_id
        updateLicenseFields _ _ _ _ _ s oldl holdl hbc2

/-- A stale stored maintainer row for external id 42. -/
def c1old : NixMaintainer :=
  { github_id := 42, github := some "oldhandle", email := none
  , matrix := none, name := "Old" }

/-- The incoming batch candidate for external id 42. -/
def c1inc : NixMaintainer :=
  { github_id := 42, github := some "newhandle"
  , email := some "new@example.org", matrix := none, name := "New" }

/-- A stale stored license row for SPDX id MIT. -/
def c1oldl : NixLicense :=
  { spdx_id := "MIT", deprecated := false, free := false
  , redistributable := false, full_name := some "Old MIT"
  , short_name := none, url := none }

/-- The incoming batch candidate for SPDX id MIT. -/
def c1incl : NixLicense :=
  { spdx_id := "MIT", deprecated := false, free := true
  , redistributable := true, full_name := some "MIT License"
  , short_name := some "mit", url := none }

/-- A store already holding the stale maintainer and license rows. -/
def c1db : DB :=
  { maintainers := [(0, c1old)], licenses := [(1, c1oldl)], metadata := []
  , maintainer_throughs := [], license_throughs := [], derivations := []
  , next_pk := 2 }

/-- The incoming raw maintainer entry for external id 42. -/
def c1mentry : MaintainerAttribute :=
  { name := "New", github := some "newhandle", github_id := some 42
  , email := some "new@example.org" }

/-- The incoming raw license entry for SPDX id MIT. -/
def c1lentry : LicenseAttribute :=
  { spdx_id := some "MIT", full_name := some "MIT License"
  , short_name := some "mit", free := true, redistributable := true }

/-- The metadata block carrying the fresh candidates for maintainer 42
and license MIT. -/
def c1meta : MetadataAttribute :=
  { name := none, maintainers := [c1mentry], license := [c1lentry] }

/-- A batch attribute whose metadata carries the fresh candidate for
maintainer 42 and license MIT. -/
def c1attr : EvaluatedAttribute :=
  { attr := "pkg.x86_64-linux", attr_path := ["pkg"], name := "pkg-1"
  , drv_path := "/nix/store/eee", system := "x86_64-linux", outputs := []
  , meta := some c1meta }

/-- The ingestion result under a rolling-release channel. -/
def c1pairR : DB × List NixDerivation :=
  match ingest true 0 c1db [c1attr] with
  | .ok p => p
  | .error _ => (emptyDB, [])

/-- The ingestion result under a non-rolling (snapshot) channel. -/
def c1pairS : DB × List NixDerivation :=
  match ingest false 0 c1db [c1attr] with
  | .ok p => p
  | .error _ => (emptyDB, [])

/-- Witness for C1 at a concrete store and batch: under the rolling
channel the stored rows take the incoming fields, under the snapshot
channel they stay untouched. -/
theorem c1_channel_policy_witness :
    (tlookup NixMaintainer.github_id 42 c1pairR.1.maintainers
        = some (if true then updateMaintainerFields c1old c1inc
          else c1old) ∧
      tlookup NixLicense.spdx_id "MIT" c1pairR.1.licenses
        = some (if true then updateLicenseFields c1oldl c1incl
          else c1oldl)) ∧
    (tlookup NixMaintainer.github_id 42 c1pairS.1.maintainers
        = some (if false then updateMaintainerFields c1old c1inc
          else c1old) ∧
      tlookup NixLicense.spdx_id "MIT" c1pairS.1.licenses
        = some (if false then updateLicenseFields c1oldl c1incl
          else c1oldl)) :=
  ⟨c1_channel_policy true 0 c1db [c1attr] c1pairR.1 c1pairR.2 42 c1old
      c1inc "MIT" c1oldl c1incl rfl rfl rfl rfl rfl,
   c1_channel_policy false 0 c1db [c1attr] c1pairS.1 c1pairS.2 42 c1old
      c1inc "MIT" c1oldl c1incl rfl rfl rfl rfl rfl⟩
